import Mathlib

/-!
Shallow embedding of the `dijkstra-floydwarshall-graph` library
(`src/Graph/Graph.js`) in Lean 4.

Modelling conventions, stated once here:

* JS numbers are modelled as `WithTop ℤ` (abbreviated `WQ`); `⊤` is the
  JS value `Infinity`.  Every number the claims and the repository's
  tests exercise is a small integer, for which IEEE-double and integer
  arithmetic coincide exactly, and no claim depends on fractional
  values (the algorithms use only `+`, `*` and comparisons, which are
  uniform in the numeric carrier).
  The JS values `undefined` and `NaN` are conflated into the `none` of
  `Option WQ` (abbreviated `JVal`): both are falsy, both propagate
  through arithmetic as NaN, and every ordering comparison against
  them is false, which is exactly how the library observes them.
* JS objects used as string-keyed dictionaries are modelled as
  insertion-ordered association lists (`JMap`), matching `for...in`
  enumeration order for non-numeric keys.  Updating an existing key
  keeps its position; a fresh key is appended.  (Integer-like keys,
  which JS enumerates first, and prototype pathologies such as a node
  literally called `__proto__` are outside the model.)
* Logging (`logProcess`, `TableLog`) is observational only and is not
  modelled; an operation that calls `logProcess(..., true)` is modelled
  as producing the outcome `JSOutcome.jsError` with the state mutated
  exactly as far as the source had mutated it at the raise site.  With
  `ignoreErrors = false` the error is thrown, otherwise execution
  continues after the `return this`; both leave the same state.
* The optional `costFormat` collaborator is `null` in every situation
  the claims describe, and `formatCost` is then the identity on the
  cost value (source lines 1008-1029), so it is omitted from the state.
* JS `while` loops are modelled with explicit fuel; a result of `none`
  means the fuel was exhausted (modelling non-termination).
-/

namespace DFW

/-- JS number that is not NaN: a finite value or `Infinity` (`⊤`). -/
abbrev WQ := WithTop ℤ

/-- A JS numeric value as the library observes it: a number, or
`none` standing for both `undefined` and `NaN`. -/
abbrev JVal := Option WQ

/-- Insertion-ordered string-keyed JS object. -/
abbrev JMap (α : Type) := List (String × α)

/-- Property read `m[k]` (first entry wins): `none` is JS `undefined`. -/
def jget {α : Type} : JMap α → String → Option α
  | [], _ => none
  | p :: rest, k => if p.1 = k then some p.2 else jget rest k

/-- The keys of an object, in enumeration order. -/
def jkeys {α : Type} (m : JMap α) : List String := m.map Prod.fst

/-- Property write `m[k] = v`: updates an existing key in place, or
appends a fresh key (JS insertion order). -/
def jset {α : Type} (m : JMap α) (k : String) (v : α) : JMap α :=
  if k ∈ jkeys m then m.map (fun p => if p.1 = k then (k, v) else p)
  else m ++ [(k, v)]

/-- Nested read `m[k1][k2]` (with `m[k1]` known to be an object). -/
def jget2 {α : Type} (m : JMap (JMap α)) (k1 k2 : String) : Option α :=
  match jget m k1 with
  | none => none
  | some inner => jget inner k2

/-- Nested write `m[k1][k2] = v` (no-op on a missing row, which in the
source would be a crash the claims never reach). -/
def jset2 {α : Type} (m : JMap (JMap α)) (k1 k2 : String) (v : α) : JMap (JMap α) :=
  match jget m k1 with
  | none => m
  | some inner => jset m k1 (jset inner k2 v)

/-- JS addition on possibly-NaN numbers: NaN propagates. -/
def oadd (a b : Option WQ) : Option WQ :=
  match a, b with
  | some x, some y => some (x + y)
  | _, _ => none

/-- JS `<` : any comparison involving NaN/undefined is false. -/
def olt (a b : Option WQ) : Bool :=
  match a, b with
  | some x, some y => decide (x < y)
  | _, _ => false

/-- JS falsiness of `m[k]` for a numeric-valued property: `undefined`,
`NaN` and `0` are falsy; every other number (including `Infinity`) is
truthy. -/
def jfalsy (v : Option JVal) : Bool :=
  match v.join with
  | none => true
  | some q => q == 0

/-- Flatten a property read of a `JVal`-valued object to the numeric
domain (`undefined` and a stored `NaN` both become `none`). -/
def onum (v : Option JVal) : Option WQ := v.join

/-- UTF-16 code-unit order on identifiers, the order `Array.sort()`
uses (identical to code-point order on the BMP strings of this
library). -/
def strLtb (a b : String) : Bool :=
  go a.data b.data
where go : List Char → List Char → Bool
  | [], [] => false
  | [], _ :: _ => true
  | _ :: _, [] => false
  | c :: cs, d :: ds =>
      if c.val.toNat < d.val.toNat then true
      else if d.val.toNat < c.val.toNat then false else go cs ds

/-- `array.sort()` on distinct identifiers. -/
def jsort (l : List String) : List String :=
  l.insertionSort (fun a b => !(strLtb b a))

/-- Outcome of a mutating/query call: `ok`, or `jsError` for a
`logProcess(..., true)` failure (thrown when `ignoreErrors` is false,
otherwise followed by `return this`; the state is the same either
way). -/
inductive JSOutcome : Type
  | ok : JSOutcome
  | jsError : JSOutcome
deriving Repr, DecidableEq

/-- The mutable state of one `Graph` instance: the adjacency object
`this.graph`, the toll map `this.costsNodes`, the construction options
the claims exercise, and the two cached Floyd-Warshall matrices
(`null` before `findMatricesFloydWarshall` runs). -/
structure GraphState : Type where
  graph : JMap (JMap WQ)
  costsNodes : JMap JVal
  ignoreErrors : Bool := true
  autoCreateNodes : Bool := false
  constantNodesCost : WQ := 0
  distanceMatrix : Option (JMap (JMap WQ)) := none
  precedenceMatrix : Option (JMap (JMap String)) := none
deriving Repr, DecidableEq

/-- The argument of `addNode`: a bare identifier string, or an object
`{name, cost, protected}`.  The source never reads a `protected`
property (the flag named by the spec); it is carried here so that its
being ignored is expressible. -/
inductive NodeSpec : Type
  | str (s : String)
  | obj (name : Option String) (cost : Option WQ) (protectedFlag : Bool)
deriving Repr, DecidableEq

/-- `addNode` (Graph.js lines 1161-1216), one node argument.

Mirrored checks, in source order:
1. `node == null || (typeof node === "object" && node.name == null)`.
2. `typeof node === "String" && this.graph.hasOwnProperty(node)`:
   `typeof` never yields the capitalised `"String"`, so this duplicate
   check is dead code — a bare-string duplicate falls through.
3. `node.name && this.graph.hasOwnProperty(node.name)`: duplicate
   check for object specs (skipped when `name` is the falsy `""`).
4. `node.cost != null && (isNaN(node.cost) || Number(node.cost) < 0)`.
5. a bare string is wrapped as `{name, cost: constantNodesCost}`;
   then `graph[name] = {}` and `costsNodes[name] = cost` are written
   (overwriting both entries when a duplicate slipped through 2). -/
def addNode (st : GraphState) (node : NodeSpec) : GraphState × JSOutcome :=
  match node with
  | .obj none _ _ => (st, .jsError)
  | .obj (some n) cost _ =>
      if n ≠ "" ∧ (jget st.graph n).isSome then (st, .jsError)
      else if cost.any (fun c => decide (c < 0)) then (st, .jsError)
      else ({ st with graph := jset st.graph n [],
                      costsNodes := jset st.costsNodes n cost }, .ok)
  | .str s =>
      ({ st with graph := jset st.graph s [],
                 costsNodes := jset st.costsNodes s (some st.constantNodesCost) }, .ok)

/-- `set constantNodesCost` (Graph.js lines 980-987): stores the new
value and overwrites the toll of every node in `costsNodes`. -/
def setConstantNodesCost (st : GraphState) (v : WQ) : GraphState :=
  { st with constantNodesCost := v,
            costsNodes := st.costsNodes.map (fun p => (p.1, some v)) }

/-- Truthiness of the JS property read `hasOwnProperty[node]` (note
the bracket: a property access on the `hasOwnProperty` function
object, not a call).  It is truthy exactly for names of (inherited)
members of that function object; for every ordinary node identifier
it is `undefined`, hence falsy. -/
def fnPropTruthy (s : String) : Bool :=
  s ∈ ["length", "name", "call", "apply", "bind", "constructor",
       "toString", "toLocaleString", "valueOf", "hasOwnProperty",
       "isPrototypeOf", "propertyIsEnumerable"]

/-- JS multiplication `v * factor` of a stored toll by a non-negative
finite factor (`Infinity * 0` is NaN, `Infinity * positive` stays
`Infinity`). -/
def jsMulFactor (v : JVal) (factor : ℤ) : JVal :=
  match v with
  | none => none
  | some ⊤ => if factor = 0 then none else some ⊤
  | some (q : ℤ) => some ((q * factor : ℤ) : WQ)

/-- `MultiplyByFactorNodesCosts` (Graph.js lines 1603-1624).  The
guard rejects NaN and negative factors; the body iterates the toll
map but tests `this.costsNodes.hasOwnProperty[node]` — a property
*access*, not a call — so the multiplication runs only for node names
that collide with members of the `hasOwnProperty` function object.
The factor is a (non-NaN) finite number here; `none` models NaN. -/
def MultiplyByFactorNodesCosts (st : GraphState) (factor : Option ℤ) :
    GraphState × JSOutcome :=
  match factor with
  | none => (st, .jsError)
  | some f =>
      if f < 0 then (st, .jsError)
      else
        ({ st with costsNodes :=
             st.costsNodes.map (fun p =>
               if fnPropTruthy p.1 then (p.1, jsMulFactor p.2 f) else p) }, .ok)

/-- `addRoute` (Graph.js lines 1370-1466).  Arguments: the two node
names (`none` models `null`/`undefined`), the weight (`none` models
NaN), `bidirectional` and `changeCreated`.

Mirrored steps, in source order:
1. reject when a node argument is null, or the weight is NaN or `≤ 0`
   (`Infinity` passes this check);
2. a missing starting node is auto-created via `addNode` when
   `autoCreateNodes` is set, else the call errors;
3. likewise for the ending node (seeing the state step 2 produced);
4. `startNode == endNode` errors (after auto-creation!);
5. an existing directed edge with `changeCreated` false errors;
6. `graph[startNode][endNode] = Number(weight)`;
7. if bidirectional, `graph[endNode][startNode] = Number(weight)`
   unconditionally — no existence check on the reverse edge. -/
def addRoute (st : GraphState) (startN endN : Option String) (weight : JVal)
    (bidirectional : Bool := false) (changeCreated : Bool := false) :
    GraphState × JSOutcome :=
  match startN, endN, weight with
  | none, _, _ => (st, .jsError)
  | _, none, _ => (st, .jsError)
  | _, _, none => (st, .jsError)
  | some s, some e, some w =>
    if w ≤ 0 then (st, .jsError)
    else
      match (if (jget st.graph s).isNone then
               (if st.autoCreateNodes then some (addNode st (.str s)).1 else none)
             else some st) with
      | none => (st, .jsError)
      | some st1 =>
        match (if (jget st1.graph e).isNone then
                 (if st1.autoCreateNodes then some (addNode st1 (.str e)).1 else none)
               else some st1) with
        | none => (st1, .jsError)
        | some st2 =>
          if s = e then (st2, .jsError)
          else if ((jget2 st2.graph s e).isSome ∧ ¬ changeCreated) then (st2, .jsError)
          else
            let st3 := { st2 with graph := jset2 st2.graph s e w }
            if bidirectional then
              ({ st3 with graph := jset2 st3.graph e s w }, .ok)
            else (st3, .ok)

/-! ### DijkstraSolver (`findCheapestNode`, `findPathDijkstra`) -/

/-- Truthiness of the loop variable `node` (a node name or `null`):
`while (node)` exits on `null` and on the empty string. -/
def truthyS (v : Option String) : Bool :=
  match v with
  | some s => s ≠ ""
  | none => false

/-- Truthiness of `parent = parents[k]` — a read of a map whose
values are node names or `null`: truthy only for a present, non-null,
non-empty name. -/
def truthyP (v : Option (Option String)) : Bool :=
  match v with
  | some (some s) => s ≠ ""
  | _ => false

/-- `findCheapestNode` (Graph.js lines 1631-1645): a running minimum
over the enumeration order of `nodes`, comparing
`nodes[node] + costsNodes[node] < nodes[closest]` (the toll is added
to the candidate but not to the incumbent), considering only
unvisited nodes; with `closest === null` any unvisited node is
taken. -/
def fcnStep (costs : JMap JVal) (nodes : JMap JVal)
    (visitedNodes : List String) (closest : Option String) (node : String) :
    Option String :=
  let isClosest :=
    match closest with
    | none => true
    | some c => olt (oadd (onum (jget nodes node)) (onum (jget costs node)))
                    (onum (jget nodes c))
  if isClosest && !(visitedNodes.contains node) then some node else closest

def findCheapestNode (costs : JMap JVal) (nodes : JMap JVal)
    (visitedNodes : List String) : Option String :=
  (jkeys nodes).foldl (fcnStep costs nodes visitedNodes) none

/-- One relaxation pass of the Dijkstra `while` body (Graph.js lines
1738-1754): for every `adjNode` of the visited `node` other than
`startNode`, with `new_cost = actual_cost + weight + toll(adjNode)`,
update `nodes[adjNode]` and `parents[adjNode]` when `nodes[adjNode]`
is falsy (unset, `0` or NaN) or `new_cost` improves it. -/
def relaxStep (costs : JMap JVal) (startNode node : String)
    (actualCost : Option WQ) (np : JMap JVal × JMap (Option String))
    (p : String × WQ) : JMap JVal × JMap (Option String) :=
  if p.1 = startNode then np
  else
    let newCost := oadd (oadd actualCost (some p.2)) (onum (jget costs p.1))
    if jfalsy (jget np.1 p.1) ∨ olt newCost (onum (jget np.1 p.1)) then
      (jset np.1 p.1 newCost, jset np.2 p.1 (some node))
    else np

def dijkstraRelax (costs : JMap JVal) (startNode node : String)
    (actualCost : Option WQ) (adjNodes : JMap WQ)
    (np : JMap JVal × JMap (Option String)) :
    JMap JVal × JMap (Option String) :=
  adjNodes.foldl (relaxStep costs startNode node actualCost) np

/-- The Dijkstra `while (node)` loop (Graph.js lines 1720-1779),
fuelled.  Each iteration reads `actual_cost = nodes[node]`, relaxes
the children of `node` (`for...in` over a missing adjacency object
iterates nothing), appends `node` to `visited` and re-selects.  A
`none` result models non-termination (fuel exhausted). -/
def dijkstraLoop (g : JMap (JMap WQ)) (costs : JMap JVal) (startNode : String) :
    Nat → JMap JVal → JMap (Option String) → List String →
    Option (JMap JVal × JMap (Option String))
  | 0, _, _, _ => none
  | fuel + 1, nodes, parents, visited =>
    match findCheapestNode costs nodes visited with
    | none => some (nodes, parents)
    | some n =>
      if n = "" then some (nodes, parents)
      else
        let actualCost := onum (jget nodes n)
        let np := dijkstraRelax costs startNode n actualCost ((jget g n).getD []) (nodes, parents)
        dijkstraLoop g costs startNode fuel np.1 np.2 (visited ++ [n])

/-- The predecessor walk building `shortestPath` (Graph.js lines
1781-1786): starting from `[endNode]`, repeatedly `unshift` the
parent while it is truthy (`undefined`, `null` and `""` all stop the
walk). -/
def dijkstraPathWalk (parents : JMap (Option String)) :
    Nat → List String → Option (Option String) → Option (List String)
  | 0, acc, parent => if truthyP parent then none else some acc
  | fuel + 1, acc, parent =>
    match parent with
    | some (some p) =>
        if p = "" then some acc
        else dijkstraPathWalk parents fuel (p :: acc) (jget parents p)
    | _ => some acc

/-- `{cost, path}` as returned by `findPathDijkstra`. -/
structure DijkstraResult : Type where
  cost : JVal
  path : List String
deriving Repr, DecidableEq

instance {ε α : Type} [DecidableEq ε] [DecidableEq α] : DecidableEq (Except ε α) :=
  fun a b =>
  match a, b with
  | .error e1, .error e2 =>
    match decEq e1 e2 with
    | isTrue h => isTrue (by rw [h])
    | isFalse h => isFalse (by intro hh; cases hh; exact h rfl)
  | .ok a1, .ok a2 =>
    match decEq a1 a2 with
    | isTrue h => isTrue (by rw [h])
    | isFalse h => isFalse (by intro hh; cases hh; exact h rfl)
  | .error _, .ok _ => isFalse (by intro hh; cases hh)
  | .ok _, .error _ => isFalse (by intro hh; cases hh)

/-- Fuel that over-approximates the number of Dijkstra iterations:
every iteration visits a fresh key of `nodes`, and the keys of
`nodes` are always among `endNode` and the adjacency targets. -/
def dijkstraFuel (st : GraphState) : Nat :=
  st.graph.length + (st.graph.map (fun p => p.2.length)).sum + 2

/-- `findPathDijkstra` (Graph.js lines 1653-1796).  `.error ()` models
the `logProcess(..., true); return this` failure exits (unknown
start/end node, or a start node with no outgoing edge).  The outer
`Option` is `none` only if a loop would not terminate.  `costFormat`
is `null` throughout the claims, so `formatCost` is the identity on
the final `nodes[endNode]`.

Initialisation mirrors lines 1683-1718: `nodes = {endNode: Infinity}`
merged with `graph[startNode]` via `Object.assign`, the literal
`parents = {endNode: null}` (the *string* `"endNode"` is the key!),
then for each child of `startNode`: `parents[child] = startNode` and
`nodes[child] += costsNodes[startNode] + costsNodes[child]`. -/
def findPathDijkstra (st : GraphState) (startN endN : String) :
    Option (Except Unit DijkstraResult) :=
  if (jget st.graph startN).isNone ∨ (jget st.graph endN).isNone then some (.error ())
  else
    let adjS := (jget st.graph startN).getD []
    if adjS = [] then some (.error ())
    else
      let nodes0 : JMap JVal := adjS.foldl (fun m p => jset m p.1 (some p.2)) [(endN, some ⊤)]
      let parents0 : JMap (Option String) := [("endNode", none)]
      let init := adjS.foldl
        (fun (np : JMap JVal × JMap (Option String)) p =>
          (jset np.1 p.1 (oadd (onum (jget np.1 p.1))
              (oadd (onum (jget st.costsNodes startN)) (onum (jget st.costsNodes p.1)))),
           jset np.2 p.1 (some startN)))
        (nodes0, parents0)
      match dijkstraLoop st.graph st.costsNodes startN (dijkstraFuel st) init.1 init.2 [] with
      | none => none
      | some (nodesF, parentsF) =>
        match dijkstraPathWalk parentsF (parentsF.length + 2) [endN] (jget parentsF endN) with
        | none => none
        | some path => some (.ok ⟨onum (jget nodesF endN), path⟩)

/-! ### FloydWarshallSolver and PathReconstructor -/

/-- The `x || Infinity` applied to the initial distance entry: JS
replaces a falsy value (`NaN` from a missing edge/toll, or `0`) by
`Infinity`. -/
def jsOrInf (v : Option WQ) : WQ :=
  match v with
  | none => ⊤
  | some q => if q = 0 then ⊤ else q

/-- Initial matrices (Graph.js lines 1810-1820): over the sorted node
list, `prec[i][j] = i`, `dist[i][j] = 0` on the diagonal and
`graph[i][j] + costsNodes[j] || Infinity` off it. -/
def fwInit (g : JMap (JMap WQ)) (costs : JMap JVal) (sorted : List String) :
    JMap (JMap WQ) × JMap (JMap String) :=
  (sorted.map (fun i =>
      (i, sorted.map (fun j =>
        (j, if i = j then 0 else jsOrInf (oadd (jget2 g i j) (onum (jget costs j))))))),
   sorted.map (fun i => (i, sorted.map (fun j => (j, i)))))

/-- One middle-node stage of the triple loop (Graph.js lines
1831-1849): for every `(startNode, endNode)` with the three skip
guards, relax through `middleNode`.  The ternary toll term is written
as in the source; its condition always holds under the guards.  The
skips also mean no entry of row `middleNode` or column `middleNode`
is written during the stage. -/
def fwInnerStep (costs : JMap JVal) (k i : String)
    (dp : JMap (JMap WQ) × JMap (JMap String)) (j : String) :
    JMap (JMap WQ) × JMap (JMap String) :=
  if k = j then dp
  else if i = j then dp
  else
    let throughMiddle :=
      oadd (oadd (jget2 dp.1 i k) (jget2 dp.1 k j))
           (if k ≠ i ∧ k ≠ j then some 0 else onum (jget costs k))
    match jget2 dp.1 i j, throughMiddle with
    | some dij, some t =>
        if t < dij then (jset2 dp.1 i j t, jset2 dp.2 i j k) else dp
    | _, _ => dp

def fwStep (costs : JMap JVal) (k : String) (sorted : List String)
    (dp : JMap (JMap WQ) × JMap (JMap String)) :
    JMap (JMap WQ) × JMap (JMap String) :=
  sorted.foldl
    (fun dp i =>
      if k = i then dp
      else sorted.foldl (fwInnerStep costs k i) dp)
    dp

/-- The post-pass (Graph.js lines 1866-1874): for every row whose
origin toll is strictly positive, add that toll to every finite,
strictly positive entry of the row. -/
def fwPostRow (costs : JMap JVal) (sorted : List String)
    (dist : JMap (JMap WQ)) (row : String) : JMap (JMap WQ) :=
  match onum (jget costs row) with
  | some c =>
      if 0 < c then
        sorted.foldl
          (fun dist col =>
            match jget2 dist row col with
            | some d =>
                if 0 < d ∧ d < ⊤ then jset2 dist row col (d + c) else dist
            | none => dist)
          dist
      else dist
  | none => dist

def fwPost (costs : JMap JVal) (sorted : List String)
    (dist : JMap (JMap WQ)) : JMap (JMap WQ) :=
  sorted.foldl (fwPostRow costs sorted) dist

/-- `findMatricesFloydWarshall` (Graph.js lines 1802-1888): sorts the
node names, initialises, runs the triple loop, applies the origin-toll
post-pass (the cost-format pass is skipped: `costFormat` is `null`
throughout the claims), caches both matrices on the instance and
returns them. -/
def findMatricesFloydWarshall (st : GraphState) :
    GraphState × (JMap (JMap WQ) × JMap (JMap String)) :=
  let sorted := jsort (jkeys st.graph)
  let dp0 := fwInit st.graph st.costsNodes sorted
  let dp := sorted.foldl (fun dp k => fwStep st.costsNodes k sorted dp) dp0
  let dist := fwPost st.costsNodes sorted dp.1
  ({ st with distanceMatrix := some dist, precedenceMatrix := some dp.2 },
   (dist, dp.2))

/-- Crash outcomes of `findPathFloydWarshall`: the precomputation
error thrown by `logProcess` when `ignoreErrors` is false, or the
uncaught `TypeError` from dereferencing a `null` matrix when the
error was suppressed and execution fell through the guard (the source
has no `return` there). -/
inductive JSCrash : Type
  | thrown : JSCrash
  | typeErr : JSCrash
deriving Repr, DecidableEq

/-- `{cost, path}` as returned by `findPathFloydWarshall`. -/
structure FWResult : Type where
  cost : JVal
  path : List String
deriving Repr, DecidableEq

/-- JS property-key coercion for the reconstruction walk: an
`undefined` subscript reads the key `"undefined"`, and
`String(undefined)` is `"undefined"`. -/
def toKey (v : Option String) : String := v.getD "undefined"

/-- The reconstruction loop (Graph.js lines 1906-1911):
`while (predecesor !== endNode) { route.push(String(endNode));
endNode = precedenceMatrix[predecesor][endNode] }`.  `predecesor`
never changes inside the loop.  Fuelled; `none` models
non-termination. -/
def fwWalk (prec : JMap (JMap String)) (predecesor : Option String) :
    Nat → List String → Option String → Option (List String)
  | 0, route, e => if predecesor = e then some route else none
  | fuel + 1, route, e =>
    if predecesor = e then some route
    else fwWalk prec predecesor fuel (route ++ [toKey e]) (jget2 prec (toKey predecesor) (toKey e))

/-- `findPathFloydWarshall` (Graph.js lines 1897-1919).  When a cached
matrix is missing, `logProcess(..., true)` raises if `ignoreErrors`
is false; with errors suppressed there is no early return, so the
code continues and crashes with a `TypeError` on the `null` matrix.
Otherwise it walks the precedence row, then pushes `predecesor` and
`startNode` and reverses, and reports `distanceMatrix[startNode][end]`
as the cost. -/
def findPathFloydWarshall (st : GraphState) (startN endN : String) (fuel : Nat) :
    Option (Except JSCrash FWResult) :=
  if ((st.precedenceMatrix = none ∨ st.distanceMatrix = none) ∧ st.ignoreErrors = false) then
    some (.error .thrown)
  else
    match st.precedenceMatrix with
    | none => some (.error .typeErr)
    | some prec =>
      let predecesor := jget2 prec startN endN
      match fwWalk prec predecesor fuel [] (some endN) with
      | none => none
      | some route =>
        match st.distanceMatrix with
        | none => some (.error .typeErr)
        | some dist =>
          some (.ok ⟨jget2 dist startN endN,
                     (route ++ [toKey predecesor, startN]).reverse⟩)

/-- All adjacency-target names of a graph object, with multiplicity:
every key the Dijkstra loop can ever add to its `nodes` object is
either the end node or one of these. -/
def targets (g : JMap (JMap WQ)) : List String :=
  (g.map (fun p => jkeys p.2)).flatten

/-! ### Reference shortest-path semantics

The two solvers are compared through a common mathematical yardstick:
the minimum cost of a simple path between two nodes whose interior
vertices are drawn from a given list.  Lists that are not actual
walks get cost `⊤` automatically, because a missing edge weighs `⊤`.
-/

/-- The weight of the directed edge `u → v`, `⊤` when absent. -/
def ew (g : JMap (JMap WQ)) (u v : String) : WQ := (jget2 g u v).getD ⊤

/-- The cost of traversing a vertex list: the sum of the weights of
its consecutive edges (`⊤`-absorbing). -/
def wcost (g : JMap (JMap WQ)) : List String → WQ
  | u :: v :: rest => ew g u v + wcost g (v :: rest)
  | _ => 0

/-- All duplicate-free interior vertex lists over `S` avoiding the
endpoints `i` and `j`: the interiors of the candidate simple paths. -/
def candidateMids (S : List String) (i j : String) : List (List String) :=
  (((S.dedup.filter (fun x => decide (¬ x = i ∧ ¬ x = j))).sublists).map
    List.permutations).flatten

/-- Minimum cost of a simple path `i → j` whose interior vertices lie
in `S` (`⊤` when no such path is a walk of the graph). -/
def spMin (g : JMap (JMap WQ)) (S : List String) (i j : String) : WQ :=
  ((candidateMids S i j).map (fun mid => wcost g (i :: (mid ++ [j])))).foldr min ⊤

/-- Well-formedness facts that hold for every graph reachable through
the library's API: node keys are distinct and non-empty, each
adjacency object has distinct keys, and every edge points at an
existing, different node.  The edge-weight bound (positive and
finite) and the zero tolls are the premises of claim C1. -/
def WFGraph (g : JMap (JMap WQ)) : Prop :=
  (jkeys g).Nodup
  ∧ ¬ "" ∈ jkeys g
  ∧ (∀ p ∈ g, (jkeys p.2).Nodup)
  ∧ (∀ p ∈ g, ∀ q ∈ p.2, q.1 ∈ jkeys g ∧ ¬ q.1 = p.1 ∧ 0 < q.2 ∧ ¬ q.2 = ⊤)

/-- Every node of `g` carries the stored toll `0`. -/
def ZeroTolls (g : JMap (JMap WQ)) (costs : JMap JVal) : Prop :=
  ∀ k ∈ jkeys g, jget costs k = some (some 0)

/-! ### Concrete graphs used by the claim theorems -/

/-- The spec's second scenario (also `examples/complex_example.js`):
options `{autoCreateNodes: true, constantNodesCost: 100,
ignoreErrors: false}`, node `C` added with toll 500, then the five
routes; `A`, `B`, `D` are auto-created with toll 100. -/
def scenarioGraph : GraphState :=
  let s0 : GraphState :=
    { graph := [], costsNodes := [], ignoreErrors := false,
      autoCreateNodes := true, constantNodesCost := 100 }
  let s1 := (addNode s0 (.obj (some "C") (some 500) false)).1
  let s2 := (addRoute s1 (some "A") (some "B") (some 2)).1
  let s3 := (addRoute s2 (some "A") (some "C") (some 1)).1
  let s4 := (addRoute s3 (some "B") (some "C") (some 2)).1
  let s5 := (addRoute s4 (some "C") (some "D") (some 1)).1
  (addRoute s5 (some "B") (some "D") (some 200)).1

/-- A two-node graph with one positive finite edge and zero tolls:
the smallest graph on which the two solvers can be compared at a
`(start, start)` pair. -/
def selfPairGraph : GraphState :=
  { graph := [("A", [("B", 1)]), ("B", [])],
    costsNodes := [("A", some 0), ("B", some 0)] }

/-- Zero tolls, positive finite weights, and two cheapest `A`-`D`
paths of equal cost: `A→C→D` and `A→B→D` (the `A` row lists `C`
before `B`, its JS insertion order). -/
def tiePairGraph : GraphState :=
  { graph := [("A", [("C", 1), ("B", 1)]), ("C", [("D", 1)]),
              ("B", [("D", 1)]), ("D", [])],
    costsNodes := [("A", some 0), ("B", some 0), ("C", some 0), ("D", some 0)] }

/-! ### Basic facts about the object model -/

theorem jget_nil {α : Type} (k : String) : jget ([] : JMap α) k = none := rfl

theorem jget_cons {α : Type} (p : String × α) (m : JMap α) (k : String) :
    jget (p :: m) k = if p.1 = k then some p.2 else jget m k := rfl

theorem jget_eq_none_iff {α : Type} (m : JMap α) (k : String) :
    jget m k = none ↔ k ∉ jkeys m := by
  induction m with
  | nil => simp [jget, jkeys]
  | cons p rest ih =>
      rw [jget_cons]
      by_cases h : p.1 = k
      · simp [h, jkeys]
      · simp only [h, if_false, ih, jkeys, List.map_cons, List.mem_cons]
        constructor
        · intro hk hor
          rcases hor with hor | hor
          · exact h hor.symm
          · exact hk (by simpa [jkeys] using hor)
        · intro hk hm
          exact hk (Or.inr (by simpa [jkeys] using hm))

theorem jget_isSome_iff {α : Type} (m : JMap α) (k : String) :
    (jget m k).isSome = true ↔ k ∈ jkeys m := by
  constructor
  · intro h
    by_contra hk
    rw [(jget_eq_none_iff m k).mpr hk] at h
    simp at h
  · intro h
    cases hg : jget m k with
    | some w => rfl
    | none => exact absurd h ((jget_eq_none_iff m k).mp hg)

theorem jset_of_mem {α : Type} (m : JMap α) (k : String) (v : α)
    (h : k ∈ jkeys m) :
    jset m k v = m.map (fun p => if p.1 = k then (k, v) else p) := by
  simp [jset, h]

theorem jset_of_not_mem {α : Type} (m : JMap α) (k : String) (v : α)
    (h : k ∉ jkeys m) :
    jset m k v = m ++ [(k, v)] := by
  simp [jset, h]

theorem jget_append {α : Type} (m1 m2 : JMap α) (k : String) :
    jget (m1 ++ m2) k = ((jget m1 k).orElse (fun _ => jget m2 k)) := by
  induction m1 with
  | nil => simp [jget]
  | cons p rest ih =>
      simp only [List.cons_append, jget_cons]
      by_cases h : p.1 = k
      · simp [h]
      · simp [h, ih]

theorem jget_replace {α : Type} (m : JMap α) (k k2 : String) (v : α) :
    jget (m.map (fun p => if p.1 = k then (k, v) else p)) k2 =
      if k = k2 then ((jget m k).map (fun _ => v)) else jget m k2 := by
  induction m with
  | nil => simp [jget]
  | cons p rest ih =>
      simp only [List.map_cons, jget_cons]
      by_cases hk : k = k2
      · subst hk
        by_cases hp : p.1 = k <;> simp [hp, ih, jget_cons]
      · by_cases hp : p.1 = k <;> simp [hp, hk, ih, jget_cons]

theorem jget_jset_self {α : Type} (m : JMap α) (k : String) (v : α) :
    jget (jset m k v) k = some v := by
  by_cases h : k ∈ jkeys m
  · rw [jset_of_mem m k v h, jget_replace, if_pos rfl]
    have := (jget_isSome_iff m k).mpr h
    rcases Option.isSome_iff_exists.mp this with ⟨w, hw⟩
    rw [hw]
    rfl
  · rw [jset_of_not_mem m k v h, jget_append, (jget_eq_none_iff m k).mpr h]
    simp [jget]

theorem jget_jset_ne {α : Type} (m : JMap α) (k k2 : String) (v : α)
    (h : k ≠ k2) : jget (jset m k v) k2 = jget m k2 := by
  by_cases hm : k ∈ jkeys m
  · rw [jset_of_mem m k v hm, jget_replace, if_neg h]
  · rw [jset_of_not_mem m k v hm, jget_append]
    cases hg : jget m k2 with
    | some w => simp [Option.orElse]
    | none => simp [Option.orElse, jget_cons, jget_nil, h]

theorem jget_jset {α : Type} (m : JMap α) (k k2 : String) (v : α) :
    jget (jset m k v) k2 = if k = k2 then some v else jget m k2 := by
  by_cases h : k = k2
  · subst h; simp [jget_jset_self]
  · rw [if_neg h, jget_jset_ne m k k2 v h]

theorem jkeys_jset_of_mem {α : Type} (m : JMap α) (k : String) (v : α)
    (h : k ∈ jkeys m) : jkeys (jset m k v) = jkeys m := by
  rw [jset_of_mem m k v h]
  simp only [jkeys, List.map_map]
  apply List.map_congr_left
  intro p _
  by_cases hp : p.1 = k
  · simp [hp]
  · simp [hp]

theorem jkeys_jset_of_not_mem {α : Type} (m : JMap α) (k : String) (v : α)
    (h : k ∉ jkeys m) : jkeys (jset m k v) = jkeys m ++ [k] := by
  rw [jset_of_not_mem m k v h]
  simp [jkeys]

theorem mem_jkeys_jset {α : Type} (m : JMap α) (k k2 : String) (v : α) :
    k2 ∈ jkeys (jset m k v) ↔ k2 ∈ jkeys m ∨ k2 = k := by
  by_cases h : k ∈ jkeys m
  · rw [jkeys_jset_of_mem m k v h]
    constructor
    · exact fun hh => Or.inl hh
    · rintro (hh | rfl)
      · exact hh
      · exact h
  · rw [jkeys_jset_of_not_mem m k v h]
    simp

theorem jget2_jset2_self {α : Type} (m : JMap (JMap α)) (k1 k2 : String) (v : α)
    (h : (jget m k1).isSome) : jget2 (jset2 m k1 k2 v) k1 k2 = some v := by
  rcases Option.isSome_iff_exists.mp h with ⟨inner, hinner⟩
  unfold jset2
  rw [hinner]
  unfold jget2
  rw [jget_jset_self]
  exact jget_jset_self _ _ _

theorem jget_jset2_ne {α : Type} (m : JMap (JMap α)) (k1 k2 k : String) (v : α)
    (h : ¬ k1 = k) : jget (jset2 m k1 k2 v) k = jget m k := by
  unfold jset2
  cases hg : jget m k1 with
  | none => rfl
  | some inner => rw [jget_jset_ne _ _ _ _ h]

theorem foldl_preserve {α β : Type} (l : List β) (f : α → β → α) (P : α → Prop)
    (h : ∀ a b, b ∈ l → P a → P (f a b)) :
    ∀ a, P a → P (l.foldl f a) := by
  induction l with
  | nil => intro a ha; exact ha
  | cons x rest ih =>
      intro a ha
      simp only [List.foldl_cons]
      exact ih (fun a b hb hp => h a b (List.mem_cons_of_mem _ hb) hp)
        (f a x) (h a x (List.mem_cons_self _ _) ha)

theorem jget_mem {α : Type} (m : JMap α) (k : String) (v : α)
    (h : jget m k = some v) : (k, v) ∈ m := by
  induction m with
  | nil => simp [jget] at h
  | cons p rest ih =>
      rw [jget_cons] at h
      by_cases hp : p.1 = k
      · rw [if_pos hp] at h
        injection h with h
        cases p with
        | mk a b =>
            simp only at hp h
            subst hp
            subst h
            exact List.mem_cons_self _ _
      · rw [if_neg hp] at h
        exact List.mem_cons_of_mem _ (ih h)

theorem mem_targets {g : JMap (JMap WQ)} {n x : String} {row : JMap WQ}
    (hrow : jget g n = some row) (hx : x ∈ jkeys row) : x ∈ targets g := by
  unfold targets
  rw [List.mem_flatten]
  exact ⟨jkeys row, List.mem_map_of_mem _ (jget_mem g n row hrow), hx⟩

theorem jkeys_subset_jset {α : Type} (m : JMap α) (k : String) (v : α) :
    ∀ x ∈ jkeys m, x ∈ jkeys (jset m k v) := by
  intro x hx
  rw [mem_jkeys_jset]
  exact Or.inl hx

theorem findCheapestNode_spec (costs : JMap JVal) (nodes : JMap JVal)
    (visited : List String) (n : String)
    (h : findCheapestNode costs nodes visited = some n) :
    n ∈ jkeys nodes ∧ n ∉ visited := by
  unfold findCheapestNode at h
  suffices haux : ∀ (l : List String) (acc : Option String),
      (∀ c, acc = some c → c ∈ jkeys nodes ∧ c ∉ visited) →
      (∀ x ∈ l, x ∈ jkeys nodes) →
      ∀ nn, l.foldl
        (fun closest node =>
          let isClosest :=
            match closest with
            | none => true
            | some c => olt (oadd (onum (jget nodes node)) (onum (jget costs node)))
                            (onum (jget nodes c))
          if isClosest && !(visited.contains node) then some node else closest)
        acc = some nn → nn ∈ jkeys nodes ∧ nn ∉ visited by
    exact haux (jkeys nodes) none (by intro c hc; cases hc) (fun x hx => hx) n h
  intro l
  induction l with
  | nil =>
      intro acc hacc _ nn hh
      exact hacc nn hh
  | cons x rest ih =>
      intro acc hacc hl nn hh
      simp only [List.foldl_cons] at hh
      refine ih _ ?_ (fun y hy => hl y (List.mem_cons_of_mem _ hy)) nn hh
      intro c hc
      split at hc
      · rename_i hcond
        injection hc with hc
        subst hc
        have h2 := (Bool.and_eq_true _ _).mp hcond
        have h3 : x ∉ visited := by
          intro hmem
          have hb := h2.2
          have hc2 : visited.contains x = true := by
            show visited.elem x = true
            exact List.elem_iff.mpr hmem
          rw [hc2] at hb
          cases hb
        exact ⟨hl x (List.mem_cons_self _ _), h3⟩
      · exact hacc c hc

/-- The walk of `dijkstraPathWalk` stops immediately on a non-truthy
parent value, returning the accumulator unchanged. -/
theorem dijkstraPathWalk_stop (parents : JMap (Option String)) (fuel : Nat)
    (acc : List String) (parent : Option (Option String))
    (h : ¬ truthyP parent = true) :
    dijkstraPathWalk parents fuel acc parent = some acc := by
  cases fuel with
  | zero => simp [dijkstraPathWalk, h]
  | succ f =>
      cases parent with
      | none => rfl
      | some op =>
          cases op with
          | none => rfl
          | some p =>
              have hp : p = "" := by
                by_contra hne
                exact h (by simp [truthyP, hne])
              simp [dijkstraPathWalk, hp]

/-- The invariant carried through the Dijkstra `while` loop for a
`(s, s)` query: the tentative cost of `s` stays `Infinity` (the
relaxation explicitly skips edges back into the start node) and `s`
never acquires a truthy parent; moreover the loop terminates, because
every iteration visits a fresh key of `nodes` and all such keys lie
in `s :: targets g`. -/
theorem dijkstraLoop_self (g : JMap (JMap WQ)) (costs : JMap JVal) (s : String) :
    ∀ (fuel : Nat) (nodes : JMap JVal) (parents : JMap (Option String))
      (visited : List String),
      jget nodes s = some (some ⊤) →
      ¬ truthyP (jget parents s) = true →
      (∀ k ∈ jkeys nodes, k ∈ s :: targets g) →
      visited.Nodup →
      (∀ v ∈ visited, v ∈ jkeys nodes) →
      (s :: targets g).dedup.length + 1 ≤ fuel + visited.length →
      ∃ nodesF parentsF,
        dijkstraLoop g costs s fuel nodes parents visited = some (nodesF, parentsF)
        ∧ jget nodesF s = some (some ⊤)
        ∧ ¬ truthyP (jget parentsF s) = true := by
  intro fuel
  induction fuel with
  | zero =>
      intro nodes parents visited h1 h2 h3 h4 h5 h6
      exfalso
      have hsub : visited.toFinset ⊆ (s :: targets g).toFinset := by
        intro x hx
        rw [List.mem_toFinset] at hx ⊢
        exact h3 x (h5 x hx)
      have hcard : visited.toFinset.card ≤ (s :: targets g).toFinset.card :=
        Finset.card_le_card hsub
      rw [List.card_toFinset, List.card_toFinset, h4.dedup] at hcard
      omega
  | succ fuel ih =>
      intro nodes parents visited h1 h2 h3 h4 h5 h6
      simp only [dijkstraLoop]
      cases hfc : findCheapestNode costs nodes visited with
      | none => exact ⟨nodes, parents, rfl, h1, h2⟩
      | some n =>
          by_cases hn : n = ""
          · subst hn
            simp only [if_pos rfl]
            exact ⟨nodes, parents, rfl, h1, h2⟩
          · simp only [if_neg hn]
            obtain ⟨hmem, hnv⟩ := findCheapestNode_spec costs nodes visited n hfc
            have hrelax :
                (jget (dijkstraRelax costs s n (onum (jget nodes n))
                    ((jget g n).getD []) (nodes, parents)).1 s = some (some ⊤)
                  ∧ ¬ truthyP (jget (dijkstraRelax costs s n (onum (jget nodes n))
                      ((jget g n).getD []) (nodes, parents)).2 s) = true)
                ∧ (∀ k ∈ jkeys (dijkstraRelax costs s n (onum (jget nodes n))
                      ((jget g n).getD []) (nodes, parents)).1, k ∈ s :: targets g)
                ∧ (∀ v ∈ jkeys nodes,
                    v ∈ jkeys (dijkstraRelax costs s n (onum (jget nodes n))
                      ((jget g n).getD []) (nodes, parents)).1) := by
              unfold dijkstraRelax
              refine foldl_preserve _ _
                (fun np => (jget np.1 s = some (some ⊤)
                    ∧ ¬ truthyP (jget np.2 s) = true)
                  ∧ (∀ k ∈ jkeys np.1, k ∈ s :: targets g)
                  ∧ (∀ v ∈ jkeys nodes, v ∈ jkeys np.1))
                ?_ (nodes, parents) ⟨⟨h1, h2⟩, h3, fun v hv => hv⟩
              intro np p hp hP
              unfold relaxStep
              by_cases hps : p.1 = s
              · rw [if_pos hps]
                exact hP
              · rw [if_neg hps]
                dsimp only
                split
                · refine ⟨⟨?_, ?_⟩, ?_, ?_⟩
                  · rw [jget_jset_ne _ _ _ _ hps]
                    exact hP.1.1
                  · rw [jget_jset_ne _ _ _ _ hps]
                    exact hP.1.2
                  · intro k hk
                    rw [mem_jkeys_jset] at hk
                    rcases hk with hk | rfl
                    · exact hP.2.1 k hk
                    · right
                      cases hrow : jget g n with
                      | none => rw [hrow] at hp; cases hp
                      | some row =>
                          rw [hrow] at hp
                          exact mem_targets hrow (List.mem_map_of_mem _ hp)
                  · intro v hv
                    exact jkeys_subset_jset _ _ _ v (hP.2.2 v hv)
                · exact hP
            obtain ⟨⟨hr1, hr2⟩, hr3, hr4⟩ := hrelax
            refine ih _ _ (visited ++ [n]) hr1 hr2 hr3 ?_ ?_ ?_
            · rw [List.nodup_append]
              exact ⟨h4, List.nodup_singleton n, by simpa using hnv⟩
            · intro v hv
              rw [List.mem_append, List.mem_singleton] at hv
              rcases hv with hv | rfl
              · exact hr4 v (h5 v hv)
              · exact hr4 v hmem
            · rw [List.length_append, List.length_singleton]
              omega

/-! ### Facts about the reference shortest-path semantics -/

theorem foldr_min_le (l : List WQ) (x : WQ) (hx : x ∈ l) :
    l.foldr min ⊤ ≤ x := by
  induction l with
  | nil => cases hx
  | cons a rest ih =>
      rw [List.mem_cons] at hx
      rcases hx with rfl | hx
      · exact min_le_left _ _
      · exact le_trans (min_le_right _ _) (ih hx)

theorem foldr_min_attained (l : List WQ) :
    l.foldr min ⊤ = ⊤ ∨ l.foldr min ⊤ ∈ l := by
  induction l with
  | nil => exact Or.inl rfl
  | cons a rest ih =>
      rcases ih with h | h
      · simp only [List.foldr_cons, h, min_eq_left le_top]
        right
        exact List.mem_cons_self _ _
      · rcases min_choice a (rest.foldr min ⊤) with hm | hm
        · right
          simp only [List.foldr_cons, hm]
          exact List.mem_cons_self _ _
        · right
          simp only [List.foldr_cons, hm]
          exact List.mem_cons_of_mem _ h

theorem mem_candidateMids (S : List String) (i j : String) (mid : List String) :
    mid ∈ candidateMids S i j
      ↔ mid.Nodup ∧ ∀ x ∈ mid, x ∈ S ∧ ¬ x = i ∧ ¬ x = j := by
  unfold candidateMids
  rw [List.mem_flatten]
  constructor
  · rintro ⟨l, hl, hmid⟩
    rw [List.mem_map] at hl
    rcases hl with ⟨sub, hsub, rfl⟩
    rw [List.mem_sublists] at hsub
    rw [List.mem_permutations] at hmid
    have hnd : ((S.dedup.filter (fun x => decide (¬ x = i ∧ ¬ x = j)))).Nodup :=
      (List.nodup_dedup S).filter _
    have hsubnd : sub.Nodup := hsub.nodup hnd
    refine ⟨hmid.nodup_iff.mpr hsubnd, ?_⟩
    intro x hx
    have hxs : x ∈ sub := (hmid.mem_iff).mp hx
    have hxl := hsub.subset hxs
    rw [List.mem_filter] at hxl
    rcases hxl with ⟨hxd, hxp⟩
    rw [decide_eq_true_eq] at hxp
    exact ⟨(List.mem_dedup).mp hxd, hxp.1, hxp.2⟩
  · rintro ⟨hnd, hel⟩
    have hsubper :
        List.Subperm mid (S.dedup.filter (fun x => decide (¬ x = i ∧ ¬ x = j))) := by
      refine List.Nodup.subperm hnd ?_
      intro x hx
      rw [List.mem_filter, List.mem_dedup, decide_eq_true_eq]
      exact ⟨(hel x hx).1, (hel x hx).2.1, (hel x hx).2.2⟩
    rcases hsubper with ⟨l2, hperm, hsub⟩
    refine ⟨l2.permutations, ?_, ?_⟩
    · rw [List.mem_map]
      exact ⟨l2, List.mem_sublists.mpr hsub, rfl⟩
    · rw [List.mem_permutations]
      exact hperm.symm

theorem spMin_le (g : JMap (JMap WQ)) (S : List String) (i j : String)
    (mid : List String) (hnd : mid.Nodup)
    (hel : ∀ x ∈ mid, x ∈ S ∧ ¬ x = i ∧ ¬ x = j) :
    spMin g S i j ≤ wcost g (i :: (mid ++ [j])) := by
  apply foldr_min_le
  rw [List.mem_map]
  exact ⟨mid, (mem_candidateMids S i j mid).mpr ⟨hnd, hel⟩, rfl⟩

theorem spMin_attained (g : JMap (JMap WQ)) (S : List String) (i j : String) :
    spMin g S i j = ⊤
    ∨ ∃ mid, mid.Nodup ∧ (∀ x ∈ mid, x ∈ S ∧ ¬ x = i ∧ ¬ x = j)
        ∧ spMin g S i j = wcost g (i :: (mid ++ [j])) := by
  rcases foldr_min_attained
      ((candidateMids S i j).map (fun mid => wcost g (i :: (mid ++ [j])))) with h | h
  · exact Or.inl h
  · right
    rw [List.mem_map] at h
    rcases h with ⟨mid, hmid, hval⟩
    rw [mem_candidateMids] at hmid
    exact ⟨mid, hmid.1, hmid.2, hval.symm⟩

theorem spMin_subset_mono (g : JMap (JMap WQ)) (S S2 : List String) (i j : String)
    (hsub : ∀ x ∈ S, x ∈ S2) : spMin g S2 i j ≤ spMin g S i j := by
  rcases spMin_attained g S i j with h | ⟨mid, hnd, hel, hval⟩
  · rw [h]
    exact le_top
  · rw [hval]
    exact spMin_le g S2 i j mid hnd
      (fun x hx => ⟨hsub x (hel x hx).1, (hel x hx).2.1, (hel x hx).2.2⟩)

theorem spMin_congr (g : JMap (JMap WQ)) (S S2 : List String) (i j : String)
    (hiff : ∀ x, x ∈ S ↔ x ∈ S2) : spMin g S i j = spMin g S2 i j :=
  le_antisymm (spMin_subset_mono g S2 S i j (fun x hx => (hiff x).mpr hx))
    (spMin_subset_mono g S S2 i j (fun x hx => (hiff x).mp hx))

theorem wcost_append (g : JMap (JMap WQ)) (l1 : List String) (x : String)
    (l2 : List String) :
    wcost g (l1 ++ x :: l2) = wcost g (l1 ++ [x]) + wcost g (x :: l2) := by
  induction l1 with
  | nil =>
      show wcost g (x :: l2) = wcost g [x] + wcost g (x :: l2)
      rw [show wcost g [x] = 0 from rfl, zero_add]
  | cons a l1 ih =>
      cases l1 with
      | nil =>
          show ew g a x + wcost g (x :: l2) = (ew g a x + wcost g [x]) + wcost g (x :: l2)
          rw [show wcost g [x] = 0 from rfl, add_zero]
      | cons b l1b =>
          show ew g a b + wcost g ((b :: l1b) ++ x :: l2)
              = (ew g a b + wcost g ((b :: l1b) ++ [x])) + wcost g (x :: l2)
          rw [ih, add_assoc]

theorem ew_pos (g : JMap (JMap WQ)) (hwf : WFGraph g) (u v : String) :
    0 < ew g u v := by
  unfold ew
  cases hg : jget2 g u v with
  | none => exact compare_gt_iff_gt.mp rfl
  | some w =>
      unfold jget2 at hg
      cases hrow : jget g u with
      | none => rw [hrow] at hg; cases hg
      | some row =>
          rw [hrow] at hg
          have h1 := jget_mem g u row hrow
          have h2 := jget_mem row v w hg
          exact (hwf.2.2.2 _ h1 _ h2).2.2.1

theorem wcost_nonneg (g : JMap (JMap WQ)) (hwf : WFGraph g) (l : List String) :
    0 ≤ wcost g l := by
  induction l with
  | nil => exact le_refl 0
  | cons u rest ih =>
      cases rest with
      | nil => exact le_refl 0
      | cons v rest2 =>
          show (0 : WQ) ≤ ew g u v + wcost g (v :: rest2)
          exact add_nonneg (le_of_lt (ew_pos g hwf u v)) ih

theorem wcost_cons_pos (g : JMap (JMap WQ)) (hwf : WFGraph g) (s : String)
    (l : List String) (hl : ¬ l = []) : 0 < wcost g (s :: l) := by
  cases l with
  | nil => exact absurd rfl hl
  | cons y rest =>
      show (0 : WQ) < ew g s y + wcost g (y :: rest)
      calc (0 : WQ) < ew g s y := ew_pos g hwf s y
        _ ≤ ew g s y + wcost g (y :: rest) :=
          le_add_of_nonneg_right (wcost_nonneg g hwf _)

theorem spMin_pos (g : JMap (JMap WQ)) (hwf : WFGraph g) (S : List String)
    (s x : String) : 0 < spMin g S s x := by
  rcases spMin_attained g S s x with h | ⟨mid, _, _, hval⟩
  · rw [h]
    exact compare_gt_iff_gt.mp rfl
  · rw [hval]
    exact wcost_cons_pos g hwf s (mid ++ [x]) (by simp)

theorem exists_dup_split {α : Type} (l : List α) (h : ¬ l.Nodup) :
    ∃ (x : α) (m1 m2 m3 : List α), l = m1 ++ x :: m2 ++ x :: m3 := by
  induction l with
  | nil => exact absurd List.nodup_nil h
  | cons a rest ih =>
      by_cases ha : a ∈ rest
      · rcases List.append_of_mem ha with ⟨m2, m3, rfl⟩
        exact ⟨a, [], m2, m3, rfl⟩
      · have hr : ¬ rest.Nodup := fun hnd => h (List.nodup_cons.mpr ⟨ha, hnd⟩)
        rcases ih hr with ⟨x, m1, m2, m3, rfl⟩
        exact ⟨x, a :: m1, m2, m3, rfl⟩

/-- Walk reduction: the cost of an arbitrary vertex list from `i` to
`j` whose members are drawn from `i`, `j` and `S` dominates the
minimum simple-path cost; revisits of the endpoints and interior
cycles can only add non-negative weight. -/
theorem spMin_le_wcost (g : JMap (JMap WQ)) (hwf : WFGraph g) (S : List String)
    (i j : String) (hij : ¬ i = j) :
    ∀ (n : Nat) (mid : List String), mid.length ≤ n →
      (∀ x ∈ mid, x = i ∨ x = j ∨ x ∈ S) →
      spMin g S i j ≤ wcost g (i :: (mid ++ [j])) := by
  intro n
  induction n with
  | zero =>
      intro mid hlen _
      have hmid : mid = [] := List.length_eq_zero.mp (Nat.le_zero.mp hlen)
      subst hmid
      exact spMin_le g S i j [] List.nodup_nil (by intro x hx; cases hx)
  | succ n ih =>
      intro mid hlen hel
      by_cases hjm : j ∈ mid
      · rcases List.append_of_mem hjm with ⟨m1, m2, rfl⟩
        have harg : i :: ((m1 ++ j :: m2) ++ [j]) = (i :: m1) ++ j :: (m2 ++ [j]) := by
          simp
        rw [harg, wcost_append]
        have hih : spMin g S i j ≤ wcost g (i :: (m1 ++ [j])) := by
          refine ih m1 ?_ (fun x hx => hel x (by simp [hx]))
          have := congrArg List.length (rfl : m1 ++ j :: m2 = m1 ++ j :: m2)
          simp only [List.length_append, List.length_cons] at hlen ⊢
          omega
        calc spMin g S i j ≤ wcost g (i :: (m1 ++ [j])) := hih
          _ = wcost g ((i :: m1) ++ [j]) := by simp
          _ ≤ wcost g ((i :: m1) ++ [j]) + wcost g (j :: (m2 ++ [j])) :=
              le_add_of_nonneg_right (wcost_nonneg g hwf _)
      · by_cases him : i ∈ mid
        · rcases List.append_of_mem him with ⟨m1, m2, rfl⟩
          have harg : i :: ((m1 ++ i :: m2) ++ [j]) = (i :: m1) ++ i :: (m2 ++ [j]) := by
            simp
          rw [harg, wcost_append]
          have hih : spMin g S i j ≤ wcost g (i :: (m2 ++ [j])) := by
            refine ih m2 ?_ (fun x hx => hel x (by simp [hx]))
            simp only [List.length_append, List.length_cons] at hlen ⊢
            omega
          calc spMin g S i j ≤ wcost g (i :: (m2 ++ [j])) := hih
            _ ≤ wcost g ((i :: m1) ++ [i]) + wcost g (i :: (m2 ++ [j])) :=
                le_add_of_nonneg_left (wcost_nonneg g hwf _)
        · by_cases hnd : mid.Nodup
          · refine spMin_le g S i j mid hnd ?_
            intro x hx
            rcases hel x hx with rfl | rfl | hxs
            · exact absurd hx him
            · exact absurd hx hjm
            · refine ⟨hxs, ?_, ?_⟩
              · intro hh
                exact him (hh ▸ hx)
              · intro hh
                exact hjm (hh ▸ hx)
          · rcases exists_dup_split mid hnd with ⟨x, m1, m2, m3, rfl⟩
            have harg : i :: ((m1 ++ x :: m2 ++ x :: m3) ++ [j])
                = (i :: m1) ++ x :: (m2 ++ x :: (m3 ++ [j])) := by
              simp
            have htotal : wcost g (i :: ((m1 ++ x :: m2 ++ x :: m3) ++ [j]))
                = wcost g ((i :: m1) ++ [x])
                  + (wcost g ((x :: m2) ++ [x]) + wcost g (x :: (m3 ++ [j]))) := by
              rw [harg, wcost_append g (i :: m1) x (m2 ++ x :: (m3 ++ [j]))]
              have harg2 : x :: (m2 ++ x :: (m3 ++ [j]))
                  = (x :: m2) ++ x :: (m3 ++ [j]) := by
                simp
              rw [harg2, wcost_append g (x :: m2) x (m3 ++ [j])]
            have hih : spMin g S i j ≤ wcost g (i :: ((m1 ++ x :: m3) ++ [j])) := by
              refine ih (m1 ++ x :: m3) ?_ ?_
              · simp only [List.length_append, List.length_cons] at hlen ⊢
                omega
              · intro y hy
                refine hel y ?_
                simp only [List.mem_append, List.mem_cons] at hy ⊢
                tauto
            have hsplit : wcost g (i :: ((m1 ++ x :: m3) ++ [j]))
                = wcost g ((i :: m1) ++ [x]) + wcost g (x :: (m3 ++ [j])) := by
              have harg3 : i :: ((m1 ++ x :: m3) ++ [j])
                  = (i :: m1) ++ x :: (m3 ++ [j]) := by
                simp
              rw [harg3, wcost_append g (i :: m1) x (m3 ++ [j])]
            rw [htotal]
            calc spMin g S i j
                ≤ wcost g ((i :: m1) ++ [x]) + wcost g (x :: (m3 ++ [j])) := by
                  rw [← hsplit]
                  exact hih
              _ ≤ wcost g ((i :: m1) ++ [x])
                  + (wcost g ((x :: m2) ++ [x]) + wcost g (x :: (m3 ++ [j]))) := by
                  refine add_le_add_left ?_ _
                  exact le_add_of_nonneg_left (wcost_nonneg g hwf _)

theorem wcost_snoc_edge (g : JMap (JMap WQ)) (s u v : String) (mid : List String) :
    wcost g (s :: ((mid ++ [u]) ++ [v]))
      = wcost g (s :: (mid ++ [u])) + ew g u v := by
  have harg : s :: ((mid ++ [u]) ++ [v]) = (s :: mid) ++ u :: [v] := by
    simp
  rw [harg, wcost_append g (s :: mid) u [v]]
  rw [show wcost g [u, v] = ew g u v + 0 from rfl, add_zero]
  rw [show (s :: mid) ++ [u] = s :: (mid ++ [u]) by simp]

/-- Triangle inequality: going to `u` along the best simple path and
then over the edge `u → y` is a walk to `y`, so it dominates the best
simple path to `y`. -/
theorem spMin_triangle (g : JMap (JMap WQ)) (hwf : WFGraph g) (S : List String)
    (s u y : String) (hsy : ¬ s = y) (hu : u ∈ S) :
    spMin g S s y ≤ spMin g S s u + ew g u y := by
  rcases spMin_attained g S s u with h | ⟨mid, hnd, hel, hval⟩
  · rw [h, top_add]
    exact le_top
  · rw [hval, ← wcost_snoc_edge g s u y mid]
    refine spMin_le_wcost g hwf S s y hsy (mid ++ [u]).length (mid ++ [u]) (le_refl _) ?_
    intro x hx
    rw [List.mem_append, List.mem_singleton] at hx
    rcases hx with hx | rfl
    · exact Or.inr (Or.inr (hel x hx).1)
    · exact Or.inr (Or.inr hu)

/-- Composition: the best simple path to `y ∈ V` followed by any tail
through `V` is a walk to `v`, dominating the best simple path to `v`. -/
theorem spMin_compose (g : JMap (JMap WQ)) (hwf : WFGraph g) (V : List String)
    (s v y : String) (hsv : ¬ s = v) (hy : y ∈ V) (tail : List String)
    (htail : ∀ x ∈ tail, x ∈ V) :
    spMin g V s v ≤ spMin g V s y + wcost g (y :: (tail ++ [v])) := by
  rcases spMin_attained g V s y with h | ⟨mid, hnd, hel, hval⟩
  · rw [h, top_add]
    exact le_top
  · have hsplit : wcost g (s :: ((mid ++ y :: tail) ++ [v]))
        = wcost g (s :: (mid ++ [y])) + wcost g (y :: (tail ++ [v])) := by
      have harg : s :: ((mid ++ y :: tail) ++ [v])
          = (s :: mid) ++ y :: (tail ++ [v]) := by
        simp
      rw [harg, wcost_append g (s :: mid) y (tail ++ [v])]
      rw [show (s :: mid) ++ [y] = s :: (mid ++ [y]) by simp]
    rw [hval, ← hsplit]
    refine spMin_le_wcost g hwf V s v hsv (mid ++ y :: tail).length
      (mid ++ y :: tail) (le_refl _) ?_
    intro x hx
    rw [List.mem_append, List.mem_cons] at hx
    rcases hx with hx | rfl | hx
    · exact Or.inr (Or.inr (hel x hx).1)
    · exact Or.inr (Or.inr hy)
    · exact Or.inr (Or.inr (htail x hx))

/-- The Dijkstra settling recurrence: adding a fresh node `u` to the
allowed interior set `V` improves the best simple path to `v` exactly
by the option "best path to `u`, then the edge `u → v`", *provided*
every member of `V` is already settled (its `V`-restricted optimum is
the global optimum).  Multi-hop continuations after `u` re-enter `V`
and are dominated via the triangle inequality. -/
theorem spMin_insert (g : JMap (JMap WQ)) (hwf : WFGraph g) (V : List String)
    (s u v : String) (hVsub : ∀ x ∈ V, x ∈ jkeys g) (hsV : ¬ s ∈ V)
    (hukeys : u ∈ jkeys g) (hsu : ¬ s = u) (hsv : ¬ s = v) (huv : ¬ u = v)
    (hsettled : ∀ y ∈ V, spMin g V s y = spMin g (jkeys g) s y) :
    spMin g (V ++ [u]) s v
      = min (spMin g V s v) (spMin g V s u + ew g u v) := by
  apply le_antisymm
  · refine le_min ?_ ?_
    · exact spMin_subset_mono g V (V ++ [u]) s v (fun x hx => by simp [hx])
    · rcases spMin_attained g V s u with h | ⟨mid, hnd, hel, hval⟩
      · rw [h, top_add]
        exact le_top
      · rw [hval, ← wcost_snoc_edge g s u v mid]
        refine spMin_le_wcost g hwf (V ++ [u]) s v hsv (mid ++ [u]).length
          (mid ++ [u]) (le_refl _) ?_
        intro x hx
        rw [List.mem_append, List.mem_singleton] at hx
        rcases hx with hx | rfl
        · exact Or.inr (Or.inr (by simp [(hel x hx).1]))
        · exact Or.inr (Or.inr (by simp))
  · rcases spMin_attained g (V ++ [u]) s v with h | ⟨mid, hnd, hel, hval⟩
    · rw [h]
      exact le_top
    · rw [hval]
      by_cases hum : u ∈ mid
      · rcases List.append_of_mem hum with ⟨m1, m2, rfl⟩
        obtain ⟨hm1nd, hum2nd, hdisj⟩ := List.nodup_append.mp hnd
        have hum1 : u ∉ m1 := fun hh => hdisj hh (List.mem_cons_self _ _)
        obtain ⟨hum2, hm2nd⟩ := List.nodup_cons.mp hum2nd
        have hm1V : ∀ x ∈ m1, x ∈ V := by
          intro x hx
          have h2 := (hel x (by simp [hx])).1
          rw [List.mem_append, List.mem_singleton] at h2
          rcases h2 with h2 | rfl
          · exact h2
          · exact absurd hx hum1
        have hm2V : ∀ x ∈ m2, x ∈ V := by
          intro x hx
          have h2 := (hel x (by simp [hx])).1
          rw [List.mem_append, List.mem_singleton] at h2
          rcases h2 with h2 | rfl
          · exact h2
          · exact absurd hx hum2
        have hfirst : spMin g V s u ≤ wcost g (s :: (m1 ++ [u])) := by
          refine spMin_le g V s u m1 hm1nd ?_
          intro x hx
          refine ⟨hm1V x hx, (hel x (by simp [hx])).2.1, ?_⟩
          intro hh
          exact hum1 (hh ▸ hx)
        have htot : wcost g (s :: ((m1 ++ u :: m2) ++ [v]))
            = wcost g (s :: (m1 ++ [u])) + wcost g (u :: (m2 ++ [v])) := by
          have harg : s :: ((m1 ++ u :: m2) ++ [v])
              = (s :: m1) ++ u :: (m2 ++ [v]) := by
            simp
          rw [harg, wcost_append g (s :: m1) u (m2 ++ [v])]
          rw [show (s :: m1) ++ [u] = s :: (m1 ++ [u]) by simp]
        rw [htot]
        cases m2 with
        | nil =>
            have hleg : wcost g (u :: (([] : List String) ++ [v])) = ew g u v := by
              rw [show wcost g (u :: (([] : List String) ++ [v]))
                  = ew g u v + 0 from rfl, add_zero]
            rw [hleg]
            exact le_trans (min_le_right _ _) (add_le_add_right hfirst _)
        | cons y m2b =>
            have hyV : y ∈ V := hm2V y (List.mem_cons_self _ _)
            have hsy : ¬ s = y := fun hh => hsV (hh ▸ hyV)
            have h1 : spMin g V s y ≤ spMin g V s u + ew g u y := by
              calc spMin g V s y = spMin g (jkeys g) s y := hsettled y hyV
                _ ≤ spMin g (jkeys g) s u + ew g u y :=
                    spMin_triangle g hwf (jkeys g) s u y hsy hukeys
                _ ≤ spMin g V s u + ew g u y :=
                    add_le_add_right (spMin_subset_mono g V (jkeys g) s u hVsub) _
            have h2 : spMin g V s v
                ≤ spMin g V s y + wcost g (y :: (m2b ++ [v])) :=
              spMin_compose g hwf V s v y hsv hyV m2b
                (fun x hx => hm2V x (List.mem_cons_of_mem _ hx))
            have hleg : wcost g (u :: ((y :: m2b) ++ [v]))
                = ew g u y + wcost g (y :: (m2b ++ [v])) := rfl
            rw [hleg]
            calc min (spMin g V s v) (spMin g V s u + ew g u v)
                ≤ spMin g V s v := min_le_left _ _
              _ ≤ spMin g V s y + wcost g (y :: (m2b ++ [v])) := h2
              _ ≤ (spMin g V s u + ew g u y) + wcost g (y :: (m2b ++ [v])) :=
                  add_le_add_right h1 _
              _ ≤ (wcost g (s :: (m1 ++ [u])) + ew g u y)
                    + wcost g (y :: (m2b ++ [v])) :=
                  add_le_add_right (add_le_add_right hfirst _) _
              _ = wcost g (s :: (m1 ++ [u]))
                    + (ew g u y + wcost g (y :: (m2b ++ [v]))) := add_assoc _ _ _
      · have hmidV : ∀ x ∈ mid, x ∈ V := by
          intro x hx
          have h2 := (hel x hx).1
          rw [List.mem_append, List.mem_singleton] at h2
          rcases h2 with h2 | rfl
          · exact h2
          · exact absurd hx hum
        refine le_trans (min_le_left _ _) ?_
        refine spMin_le g V s v mid hnd ?_
        intro x hx
        exact ⟨hmidV x hx, (hel x hx).2.1, (hel x hx).2.2⟩

theorem jget2_jset2_ne {α : Type} (m : JMap (JMap α)) (x y a b : String) (v : α)
    (h : ¬ (x = a ∧ y = b)) : jget2 (jset2 m x y v) a b = jget2 m a b := by
  by_cases hxa : x = a
  · subst hxa
    have hyb : ¬ y = b := fun hh => h ⟨rfl, hh⟩
    unfold jset2
    cases hrow : jget m x with
    | none => rfl
    | some row =>
        unfold jget2
        rw [jget_jset_self, hrow]
        exact jget_jset_ne _ _ _ _ hyb
  · unfold jget2
    rw [show jget (jset2 m x y v) a = jget m a from jget_jset2_ne m x y a v hxa]

theorem jget_map_key {α : Type} (l : List String) (f : String → α) (x : String) :
    jget (l.map (fun k => (k, f k))) x = if x ∈ l then some (f x) else none := by
  induction l with
  | nil => simp [jget]
  | cons a rest ih =>
      simp only [List.map_cons, jget_cons]
      by_cases ha : a = x
      · subst ha
        simp
      · rw [if_neg ha, ih]
        by_cases hx : x ∈ rest
        · rw [if_pos hx, if_pos (List.mem_cons_of_mem _ hx)]
        · rw [if_neg hx, if_neg ?_]
          intro hh
          rw [List.mem_cons] at hh
          rcases hh with rfl | hh
          · exact ha rfl
          · exact hx hh

theorem fwInnerStep_skip (costs : JMap JVal) (k i : String)
    (dp : JMap (JMap WQ) × JMap (JMap String)) (j : String)
    (h : k = j ∨ i = j) : fwInnerStep costs k i dp j = dp := by
  unfold fwInnerStep
  by_cases h1 : k = j
  · rw [if_pos h1]
  · rw [if_neg h1, if_pos (h.resolve_left h1)]

theorem fwInnerStep_untouched (costs : JMap JVal) (k i : String)
    (dp : JMap (JMap WQ) × JMap (JMap String)) (j a b : String)
    (h : ¬ (a = i ∧ b = j)) :
    jget2 (fwInnerStep costs k i dp j).1 a b = jget2 dp.1 a b := by
  unfold fwInnerStep
  split
  · rfl
  · split
    · rfl
    · dsimp only
      split
      all_goals try rfl
      split
      · show jget2 (jset2 dp.1 i j _) a b = jget2 dp.1 a b
        exact jget2_jset2_ne _ _ _ _ _ _ (fun hh => h ⟨hh.1.symm, hh.2.symm⟩)
      · rfl

theorem fwInnerStep_update (costs : JMap JVal) (k i : String)
    (dp : JMap (JMap WQ) × JMap (JMap String)) (b : String)
    (hkb : ¬ k = b) (hib : ¬ i = b) :
    jget2 (fwInnerStep costs k i dp b).1 i b
      = match jget2 dp.1 i b,
          oadd (oadd (jget2 dp.1 i k) (jget2 dp.1 k b))
            (if k ≠ i ∧ k ≠ b then some 0 else onum (jget costs k)) with
        | some dij, some t => some (if t < dij then t else dij)
        | _, _ => jget2 dp.1 i b := by
  unfold fwInnerStep
  rw [if_neg hkb, if_neg hib]
  dsimp only
  cases hd : jget2 dp.1 i b with
  | none => exact hd
  | some dij =>
      cases ht : oadd (oadd (jget2 dp.1 i k) (jget2 dp.1 k b))
          (if k ≠ i ∧ k ≠ b then some 0 else onum (jget costs k)) with
      | none => exact hd
      | some t =>
          show jget2 (if t < dij then (jset2 dp.1 i b t, jset2 dp.2 i b k)
                      else dp).1 i b
            = some (if t < dij then t else dij)
          by_cases hlt : t < dij
          · rw [if_pos hlt, if_pos hlt]
            show jget2 (jset2 dp.1 i b t) i b = some t
            apply jget2_jset2_self
            unfold jget2 at hd
            cases hg : jget dp.1 i with
            | none => rw [hg] at hd; cases hd
            | some row => rfl
          · rw [if_neg hlt, if_neg hlt]
            exact hd

theorem fwInner_foldl_spec (costs : JMap JVal) (k i : String) (hki : ¬ k = i) :
    ∀ (jl : List String), jl.Nodup →
    ∀ (dp : JMap (JMap WQ) × JMap (JMap String)),
      (∀ a b, ¬ (a = i ∧ b ∈ jl) →
        jget2 (jl.foldl (fwInnerStep costs k i) dp).1 a b = jget2 dp.1 a b)
      ∧ (∀ b ∈ jl, ¬ k = b → ¬ i = b →
        jget2 (jl.foldl (fwInnerStep costs k i) dp).1 i b
          = match jget2 dp.1 i b,
              oadd (oadd (jget2 dp.1 i k) (jget2 dp.1 k b))
                (if k ≠ i ∧ k ≠ b then some 0 else onum (jget costs k)) with
            | some dij, some t => some (if t < dij then t else dij)
            | _, _ => jget2 dp.1 i b)
      ∧ (∀ b ∈ jl, (k = b ∨ i = b) →
        jget2 (jl.foldl (fwInnerStep costs k i) dp).1 i b = jget2 dp.1 i b) := by
  intro jl
  induction jl with
  | nil =>
      intro _ dp
      exact ⟨fun a b _ => rfl, fun b hb => absurd hb (List.not_mem_nil b),
        fun b hb => absurd hb (List.not_mem_nil b)⟩
  | cons b0 rest ih =>
      intro hnd dp
      obtain ⟨hb0, hrest⟩ := List.nodup_cons.mp hnd
      have IH := ih hrest (fwInnerStep costs k i dp b0)
      refine ⟨?_, ?_, ?_⟩
      · intro a b h
        have h1 : ¬ (a = i ∧ b ∈ rest) :=
          fun hh => h ⟨hh.1, List.mem_cons_of_mem _ hh.2⟩
        have h2 : ¬ (a = i ∧ b = b0) :=
          fun hh => h ⟨hh.1, List.mem_cons.mpr (Or.inl hh.2)⟩
        rw [List.foldl_cons, IH.1 a b h1]
        exact fwInnerStep_untouched costs k i dp b0 a b h2
      · intro b hb hkb hib
        rw [List.foldl_cons]
        rcases List.mem_cons.mp hb with rfl | hbr
        · have h1 : ¬ (i = i ∧ b ∈ rest) := fun hh => hb0 hh.2
          rw [IH.1 i b h1]
          exact fwInnerStep_update costs k i dp b hkb hib
        · have e1 : jget2 (fwInnerStep costs k i dp b0).1 i b = jget2 dp.1 i b :=
            fwInnerStep_untouched costs k i dp b0 i b
              (fun hh => hb0 (hh.2 ▸ hbr))
          have e2 : jget2 (fwInnerStep costs k i dp b0).1 i k = jget2 dp.1 i k := by
            by_cases hkb0 : k = b0
            · rw [fwInnerStep_skip costs k i dp b0 (Or.inl hkb0)]
            · exact fwInnerStep_untouched costs k i dp b0 i k
                (fun hh => hkb0 hh.2)
          have e3 : jget2 (fwInnerStep costs k i dp b0).1 k b = jget2 dp.1 k b :=
            fwInnerStep_untouched costs k i dp b0 k b (fun hh => hki hh.1)
          rw [IH.2.1 b hbr hkb hib, e1, e2, e3]
      · intro b hb hor
        rw [List.foldl_cons]
        rcases List.mem_cons.mp hb with rfl | hbr
        · have h1 : ¬ (i = i ∧ b ∈ rest) := fun hh => hb0 hh.2
          rw [IH.1 i b h1, fwInnerStep_skip costs k i dp b hor]
        · have e1 : jget2 (fwInnerStep costs k i dp b0).1 i b = jget2 dp.1 i b :=
            fwInnerStep_untouched costs k i dp b0 i b
              (fun hh => hb0 (hh.2 ▸ hbr))
          rw [IH.2.2 b hbr hor, e1]

theorem fwOuter_foldl_spec (costs : JMap JVal) (k : String) (sorted : List String)
    (hsnd : sorted.Nodup) :
    ∀ (il : List String), il.Nodup →
    ∀ (dp : JMap (JMap WQ) × JMap (JMap String)) (a b : String),
      jget2 (il.foldl (fun dp i => if k = i then dp
          else sorted.foldl (fwInnerStep costs k i) dp) dp).1 a b
        = if a ∈ il ∧ ¬ k = a ∧ b ∈ sorted ∧ ¬ k = b ∧ ¬ a = b
          then match jget2 dp.1 a b,
              oadd (oadd (jget2 dp.1 a k) (jget2 dp.1 k b))
                (if k ≠ a ∧ k ≠ b then some 0 else onum (jget costs k)) with
            | some dij, some t => some (if t < dij then t else dij)
            | _, _ => jget2 dp.1 a b
          else jget2 dp.1 a b := by
  intro il
  induction il with
  | nil =>
      intro _ dp a b
      have hnc : ¬ (a ∈ ([] : List String) ∧ ¬ k = a ∧ b ∈ sorted ∧ ¬ k = b
          ∧ ¬ a = b) := fun hh => List.not_mem_nil a hh.1
      rw [if_neg hnc]
      rfl
  | cons i0 rest ih =>
      intro hnd dp a b
      obtain ⟨hi0, hrest⟩ := List.nodup_cons.mp hnd
      simp only [List.foldl_cons]
      by_cases hk0 : k = i0
      · rw [if_pos hk0, ih hrest dp a b]
        by_cases hC : a ∈ rest ∧ ¬ k = a ∧ b ∈ sorted ∧ ¬ k = b ∧ ¬ a = b
        · have hC2 : a ∈ i0 :: rest ∧ ¬ k = a ∧ b ∈ sorted ∧ ¬ k = b ∧ ¬ a = b :=
            ⟨List.mem_cons_of_mem _ hC.1, hC.2⟩
          rw [if_pos hC, if_pos hC2]
        · have hC2 : ¬ (a ∈ i0 :: rest ∧ ¬ k = a ∧ b ∈ sorted ∧ ¬ k = b
              ∧ ¬ a = b) := fun hh => hC ⟨(List.mem_cons.mp hh.1).resolve_left
                (fun he => hh.2.1 (hk0.trans he.symm)), hh.2⟩
          rw [if_neg hC, if_neg hC2]
      · rw [if_neg hk0, ih hrest (sorted.foldl (fwInnerStep costs k i0) dp) a b]
        have INS := fwInner_foldl_spec costs k i0 hk0 sorted hsnd dp
        by_cases hai : a = i0
        · rw [hai]
          have hnc : ¬ (i0 ∈ rest ∧ ¬ k = i0 ∧ b ∈ sorted ∧ ¬ k = b ∧ ¬ i0 = b) :=
            fun hh => hi0 hh.1
          rw [if_neg hnc]
          by_cases hbs : b ∈ sorted
          · by_cases hkb : k = b
            · have hnc2 : ¬ (i0 ∈ i0 :: rest ∧ ¬ k = i0 ∧ b ∈ sorted ∧ ¬ k = b
                  ∧ ¬ i0 = b) := fun hh => hh.2.2.2.1 hkb
              rw [INS.2.2 b hbs (Or.inl hkb), if_neg hnc2]
            · by_cases hib : i0 = b
              · have hnc2 : ¬ (i0 ∈ i0 :: rest ∧ ¬ k = i0 ∧ b ∈ sorted ∧ ¬ k = b
                    ∧ ¬ i0 = b) := fun hh => hh.2.2.2.2 hib
                rw [INS.2.2 b hbs (Or.inr hib), if_neg hnc2]
              · have hC2 : i0 ∈ i0 :: rest ∧ ¬ k = i0 ∧ b ∈ sorted ∧ ¬ k = b
                    ∧ ¬ i0 = b := ⟨List.mem_cons_self _ _, hk0, hbs, hkb, hib⟩
                rw [INS.2.1 b hbs hkb hib, if_pos hC2]
          · have hnc2 : ¬ (i0 ∈ i0 :: rest ∧ ¬ k = i0 ∧ b ∈ sorted ∧ ¬ k = b
                ∧ ¬ i0 = b) := fun hh => hbs hh.2.2.1
            rw [INS.1 i0 b (fun hh => hbs hh.2), if_neg hnc2]
        · have e1 : jget2 (sorted.foldl (fwInnerStep costs k i0) dp).1 a b
              = jget2 dp.1 a b := INS.1 a b (fun hh => hai hh.1)
          have e2 : jget2 (sorted.foldl (fwInnerStep costs k i0) dp).1 a k
              = jget2 dp.1 a k := INS.1 a k (fun hh => hai hh.1)
          have e3 : jget2 (sorted.foldl (fwInnerStep costs k i0) dp).1 k b
              = jget2 dp.1 k b := INS.1 k b (fun hh => hk0 hh.1)
          rw [e1, e2, e3]
          by_cases hC : a ∈ rest ∧ ¬ k = a ∧ b ∈ sorted ∧ ¬ k = b ∧ ¬ a = b
          · have hC2 : a ∈ i0 :: rest ∧ ¬ k = a ∧ b ∈ sorted ∧ ¬ k = b ∧ ¬ a = b :=
              ⟨List.mem_cons_of_mem _ hC.1, hC.2⟩
            rw [if_pos hC, if_pos hC2]
          · have hC2 : ¬ (a ∈ i0 :: rest ∧ ¬ k = a ∧ b ∈ sorted ∧ ¬ k = b
                ∧ ¬ a = b) :=
              fun hh => hC ⟨(List.mem_cons.mp hh.1).resolve_left hai, hh.2⟩
            rw [if_neg hC, if_neg hC2]

theorem fwStep_dist_spec (costs : JMap JVal) (k : String) (sorted : List String)
    (hsnd : sorted.Nodup) (dp : JMap (JMap WQ) × JMap (JMap String))
    (a b : String) :
    jget2 (fwStep costs k sorted dp).1 a b
      = if a ∈ sorted ∧ ¬ k = a ∧ b ∈ sorted ∧ ¬ k = b ∧ ¬ a = b
        then match jget2 dp.1 a b,
            oadd (oadd (jget2 dp.1 a k) (jget2 dp.1 k b))
              (if k ≠ a ∧ k ≠ b then some 0 else onum (jget costs k)) with
          | some dij, some t => some (if t < dij then t else dij)
          | _, _ => jget2 dp.1 a b
        else jget2 dp.1 a b :=
  fwOuter_foldl_spec costs k sorted hsnd sorted hsnd dp a b

theorem spMin_nil (g : JMap (JMap WQ)) (i j : String) :
    spMin g [] i j = ew g i j := by
  have h1 : candidateMids [] i j = [[]] := by
    unfold candidateMids
    simp
  unfold spMin
  rw [h1]
  show min (wcost g (i :: ([] ++ [j]))) ⊤ = ew g i j
  rw [min_eq_left le_top]
  show ew g i j + 0 = ew g i j
  exact add_zero _

theorem jget2_wf (g : JMap (JMap WQ)) (hwf : WFGraph g) (u v : String) (w : WQ)
    (hg : jget2 g u v = some w) : 0 < w ∧ ¬ w = ⊤ := by
  unfold jget2 at hg
  cases hrow : jget g u with
  | none => rw [hrow] at hg; cases hg
  | some row =>
      rw [hrow] at hg
      have h1 := jget_mem g u row hrow
      have h2 := jget_mem row v w hg
      exact ⟨(hwf.2.2.2 _ h1 _ h2).2.2.1, (hwf.2.2.2 _ h1 _ h2).2.2.2⟩

theorem spMin_append_endpoint (g : JMap (JMap WQ)) (M : List String)
    (k i j : String) (h : k = i ∨ k = j) :
    spMin g (M ++ [k]) i j = spMin g M i j := by
  apply le_antisymm
  · exact spMin_subset_mono g M (M ++ [k]) i j (fun x hx => by simp [hx])
  · rcases spMin_attained g (M ++ [k]) i j with hh | ⟨mid, hnd, hel, hval⟩
    · rw [hh]
      exact le_top
    · rw [hval]
      apply spMin_le g M i j mid hnd
      intro x hx
      have hc := hel x hx
      have hxM : x ∈ M := by
        rcases List.mem_append.mp hc.1 with hxM | hxk
        · exact hxM
        · rw [List.mem_singleton] at hxk
          subst hxk
          rcases h with rfl | rfl
          · exact absurd rfl hc.2.1
          · exact absurd rfl hc.2.2
      exact ⟨hxM, hc.2.1, hc.2.2⟩

/-- The pure Floyd-Warshall recurrence on simple-path minima: allowing
one more interior vertex `k` either leaves the optimum alone or splits
it at the unique visit to `k`. -/
theorem spMin_fw_insert (g : JMap (JMap WQ)) (hwf : WFGraph g) (M : List String)
    (k a b : String) (hab : ¬ a = b) (hka : ¬ k = a) (hkb : ¬ k = b) :
    spMin g (M ++ [k]) a b
      = min (spMin g M a b) (spMin g M a k + spMin g M k b) := by
  apply le_antisymm
  · refine le_min ?_ ?_
    · exact spMin_subset_mono g M (M ++ [k]) a b (fun x hx => by simp [hx])
    · rcases spMin_attained g M a k with h1 | ⟨m1, hnd1, hel1, hv1⟩
      · rw [h1, top_add]
        exact le_top
      rcases spMin_attained g M k b with h2 | ⟨m2, hnd2, hel2, hv2⟩
      · rw [h2, add_top]
        exact le_top
      rw [hv1, hv2]
      have hsplice : wcost g (a :: ((m1 ++ k :: m2) ++ [b]))
          = wcost g (a :: (m1 ++ [k])) + wcost g (k :: (m2 ++ [b])) := by
        have harg : a :: ((m1 ++ k :: m2) ++ [b])
            = (a :: m1) ++ k :: (m2 ++ [b]) := by simp
        rw [harg, wcost_append g (a :: m1) k (m2 ++ [b])]
        rw [show (a :: m1) ++ [k] = a :: (m1 ++ [k]) by simp]
      rw [← hsplice]
      refine spMin_le_wcost g hwf (M ++ [k]) a b hab (m1 ++ k :: m2).length
        (m1 ++ k :: m2) (le_refl _) ?_
      intro x hx
      rw [List.mem_append, List.mem_cons] at hx
      rcases hx with hx | hx | hx
      · exact Or.inr (Or.inr (List.mem_append_left _ (hel1 x hx).1))
      · rw [hx]
        exact Or.inr (Or.inr (List.mem_append_right _ (List.mem_singleton.mpr rfl)))
      · exact Or.inr (Or.inr (List.mem_append_left _ (hel2 x hx).1))
  · rcases spMin_attained g (M ++ [k]) a b with h | ⟨mid, hnd, hel, hval⟩
    · rw [h]
      exact le_top
    rw [hval]
    by_cases hk : k ∈ mid
    · rcases List.append_of_mem hk with ⟨m1, m2, rfl⟩
      rw [List.nodup_append] at hnd
      have hkm2 : k ∉ m2 := (List.nodup_cons.mp hnd.2.1).1
      have hsplice : wcost g (a :: ((m1 ++ k :: m2) ++ [b]))
          = wcost g (a :: (m1 ++ [k])) + wcost g (k :: (m2 ++ [b])) := by
        have harg : a :: ((m1 ++ k :: m2) ++ [b])
            = (a :: m1) ++ k :: (m2 ++ [b]) := by simp
        rw [harg, wcost_append g (a :: m1) k (m2 ++ [b])]
        rw [show (a :: m1) ++ [k] = a :: (m1 ++ [k]) by simp]
      rw [hsplice]
      have h1 : spMin g M a k ≤ wcost g (a :: (m1 ++ [k])) := by
        refine spMin_le_wcost g hwf M a k (fun he => hka he.symm) m1.length m1
          (le_refl _) ?_
        intro x hx
        have hxmem := (hel x (List.mem_append_left _ hx)).1
        rw [List.mem_append, List.mem_singleton] at hxmem
        rcases hxmem with hxM | rfl
        · exact Or.inr (Or.inr hxM)
        · exact absurd (List.mem_cons_self x m2) (hnd.2.2 hx)
      have h2 : spMin g M k b ≤ wcost g (k :: (m2 ++ [b])) := by
        refine spMin_le_wcost g hwf M k b hkb m2.length m2 (le_refl _) ?_
        intro x hx
        have hxmem :=
          (hel x (List.mem_append_right _ (List.mem_cons_of_mem _ hx))).1
        rw [List.mem_append, List.mem_singleton] at hxmem
        rcases hxmem with hxM | rfl
        · exact Or.inr (Or.inr hxM)
        · exact absurd hx hkm2
      exact le_trans (min_le_right _ _) (add_le_add h1 h2)
    · have h1 : spMin g M a b ≤ wcost g (a :: (mid ++ [b])) := by
        apply spMin_le g M a b mid hnd
        intro x hx
        have hc := hel x hx
        have hxM : x ∈ M := by
          rcases List.mem_append.mp hc.1 with hxM | hxk
          · exact hxM
          · rw [List.mem_singleton] at hxk
            exact absurd (hxk ▸ hx) hk
        exact ⟨hxM, hc.2.1, hc.2.2⟩
      exact le_trans (min_le_left _ _) h1

theorem fwInit_dist_entry (g : JMap (JMap WQ)) (costs : JMap JVal)
    (sorted : List String) (a b : String) (ha : a ∈ sorted) (hb : b ∈ sorted) :
    jget2 (fwInit g costs sorted).1 a b
      = some (if a = b then 0
          else jsOrInf (oadd (jget2 g a b) (onum (jget costs b)))) := by
  unfold fwInit jget2
  rw [jget_map_key, if_pos ha]
  show jget (sorted.map (fun j => (j, if a = j then 0
      else jsOrInf (oadd (jget2 g a j) (onum (jget costs j)))))) b = _
  rw [jget_map_key, if_pos hb]
  rfl

theorem fwInit_spMin (g : JMap (JMap WQ)) (costs : JMap JVal) (hwf : WFGraph g)
    (hzt : ZeroTolls g costs) (sorted : List String)
    (hmem : ∀ x, x ∈ sorted ↔ x ∈ jkeys g)
    (a b : String) (ha : a ∈ sorted) (hb : b ∈ sorted) (hab : ¬ a = b) :
    jget2 (fwInit g costs sorted).1 a b = some (spMin g [] a b) := by
  rw [fwInit_dist_entry g costs sorted a b ha hb, if_neg hab, spMin_nil]
  congr 1
  rw [hzt b ((hmem b).mp hb)]
  show jsOrInf (oadd (jget2 g a b) (some 0)) = ew g a b
  cases hg : jget2 g a b with
  | none =>
      show jsOrInf none = ew g a b
      unfold ew
      rw [hg]
      rfl
  | some w =>
      have hw := jget2_wf g hwf a b w hg
      have h0 : ¬ w + 0 = 0 := by
        rw [add_zero]
        exact fun hz => absurd (hz ▸ hw.1) (lt_irrefl 0)
      unfold ew
      rw [hg]
      show (if w + 0 = 0 then (⊤ : WQ) else (w + 0)) = w
      rw [if_neg h0, add_zero]

theorem fwStage_invariant (g : JMap (JMap WQ)) (costs : JMap JVal)
    (hwf : WFGraph g) (sorted : List String) (hsnd : sorted.Nodup)
    (M : List String) (k : String) (hk : k ∈ sorted)
    (dp : JMap (JMap WQ) × JMap (JMap String))
    (hinv : ∀ a ∈ sorted, ∀ b ∈ sorted, ¬ a = b →
      jget2 dp.1 a b = some (spMin g M a b)) :
    ∀ a ∈ sorted, ∀ b ∈ sorted, ¬ a = b →
      jget2 (fwStep costs k sorted dp).1 a b
        = some (spMin g (M ++ [k]) a b) := by
  intro a ha b hb hab
  rw [fwStep_dist_spec costs k sorted hsnd dp a b]
  by_cases hka : k = a
  · have hnc : ¬ (a ∈ sorted ∧ ¬ k = a ∧ b ∈ sorted ∧ ¬ k = b ∧ ¬ a = b) :=
      fun hh => hh.2.1 hka
    rw [if_neg hnc, hinv a ha b hb hab,
      spMin_append_endpoint g M k a b (Or.inl hka)]
  · by_cases hkb : k = b
    · have hnc : ¬ (a ∈ sorted ∧ ¬ k = a ∧ b ∈ sorted ∧ ¬ k = b ∧ ¬ a = b) :=
        fun hh => hh.2.2.2.1 hkb
      rw [if_neg hnc, hinv a ha b hb hab,
        spMin_append_endpoint g M k a b (Or.inr hkb)]
    · have hC : a ∈ sorted ∧ ¬ k = a ∧ b ∈ sorted ∧ ¬ k = b ∧ ¬ a = b :=
        ⟨ha, hka, hb, hkb, hab⟩
      rw [if_pos hC, hinv a ha b hb hab, hinv a ha k hk (fun h => hka h.symm),
        hinv k hk b hb hkb, if_pos (⟨hka, hkb⟩ : k ≠ a ∧ k ≠ b)]
      rw [spMin_fw_insert g hwf M k a b hab hka hkb]
      show some (if spMin g M a k + spMin g M k b + 0 < spMin g M a b
          then spMin g M a k + spMin g M k b + 0 else spMin g M a b)
        = some (min (spMin g M a b) (spMin g M a k + spMin g M k b))
      rw [add_zero]
      congr 1
      by_cases hlt : spMin g M a k + spMin g M k b < spMin g M a b
      · rw [if_pos hlt, min_eq_right (le_of_lt hlt)]
      · rw [if_neg hlt, min_eq_left (le_of_not_lt hlt)]

theorem fwLoop_invariant (g : JMap (JMap WQ)) (costs : JMap JVal)
    (hwf : WFGraph g) (sorted : List String) (hsnd : sorted.Nodup) :
    ∀ (ks : List String), (∀ x ∈ ks, x ∈ sorted) →
    ∀ (M : List String) (dp : JMap (JMap WQ) × JMap (JMap String)),
    (∀ a ∈ sorted, ∀ b ∈ sorted, ¬ a = b →
      jget2 dp.1 a b = some (spMin g M a b)) →
    ∀ a ∈ sorted, ∀ b ∈ sorted, ¬ a = b →
      jget2 (ks.foldl (fun dp k => fwStep costs k sorted dp) dp).1 a b
        = some (spMin g (M ++ ks) a b) := by
  intro ks
  induction ks with
  | nil =>
      intro _ M dp hinv a ha b hb hab
      rw [List.append_nil]
      exact hinv a ha b hb hab
  | cons k rest ih =>
      intro hks M dp hinv a ha b hb hab
      rw [List.foldl_cons]
      have hstep := fwStage_invariant g costs hwf sorted hsnd M k
        (hks k (List.mem_cons_self _ _)) dp hinv
      have hrec := ih (fun x hx => hks x (List.mem_cons_of_mem _ hx)) (M ++ [k])
        (fwStep costs k sorted dp) hstep a ha b hb hab
      rw [hrec, show (M ++ [k]) ++ rest = M ++ k :: rest by simp]

theorem fwPostRow_zero (costs : JMap JVal) (sorted : List String)
    (dist : JMap (JMap WQ)) (row : String)
    (hz : jget costs row = some (some 0)) :
    fwPostRow costs sorted dist row = dist := by
  unfold fwPostRow
  rw [hz]
  show (if (0 : WQ) < 0 then _ else dist) = dist
  rw [if_neg (lt_irrefl (0 : WQ))]

theorem fwPost_zero (costs : JMap JVal) (sorted : List String)
    (dist : JMap (JMap WQ))
    (hz : ∀ x ∈ sorted, jget costs x = some (some 0)) :
    fwPost costs sorted dist = dist := by
  unfold fwPost
  have key : ∀ (l : List String), (∀ x ∈ l, jget costs x = some (some 0)) →
      ∀ d, l.foldl (fwPostRow costs sorted) d = d := by
    intro l
    induction l with
    | nil => intro _ d; rfl
    | cons r rest ih =>
        intro hzl d
        rw [List.foldl_cons, fwPostRow_zero costs sorted d r
          (hzl r (List.mem_cons_self _ _))]
        exact ih (fun x hx => hzl x (List.mem_cons_of_mem _ hx)) d
  exact key sorted hz dist

/-- Under the premises of claim C1 the Floyd-Warshall distance matrix
holds exactly the minimum simple-path costs of the graph. -/
theorem fw_dist_entry (st : GraphState) (hwf : WFGraph st.graph)
    (hzt : ZeroTolls st.graph st.costsNodes) (s e : String)
    (hs : s ∈ jkeys st.graph) (he : e ∈ jkeys st.graph) (hse : ¬ s = e) :
    jget2 (findMatricesFloydWarshall st).2.1 s e
      = some (spMin st.graph (jkeys st.graph) s e) := by
  have hperm : (jsort (jkeys st.graph)).Perm (jkeys st.graph) :=
    List.perm_insertionSort _ _
  have hnd : (jsort (jkeys st.graph)).Nodup := hperm.nodup_iff.mpr hwf.1
  have hmem : ∀ x, x ∈ jsort (jkeys st.graph) ↔ x ∈ jkeys st.graph :=
    fun x => hperm.mem_iff
  unfold findMatricesFloydWarshall
  dsimp only
  rw [fwPost_zero st.costsNodes (jsort (jkeys st.graph)) _
    (fun x hx => hzt x ((hmem x).mp hx))]
  have hinit : ∀ a ∈ jsort (jkeys st.graph), ∀ b ∈ jsort (jkeys st.graph),
      ¬ a = b → jget2 (fwInit st.graph st.costsNodes
          (jsort (jkeys st.graph))).1 a b
        = some (spMin st.graph [] a b) :=
    fun a ha b hb hab => fwInit_spMin st.graph st.costsNodes hwf hzt
      (jsort (jkeys st.graph)) hmem a b ha hb hab
  have hloop := fwLoop_invariant st.graph st.costsNodes hwf
    (jsort (jkeys st.graph)) hnd (jsort (jkeys st.graph)) (fun x hx => hx) []
    (fwInit st.graph st.costsNodes (jsort (jkeys st.graph))) hinit
    s ((hmem s).mpr hs) e ((hmem e).mpr he) hse
  rw [hloop]
  congr 1
  exact spMin_congr st.graph (jsort (jkeys st.graph)) (jkeys st.graph) s e hmem

theorem jget_of_mem_nodup {α : Type} :
    ∀ (m : JMap α) (p : String × α), p ∈ m → (jkeys m).Nodup →
      jget m p.1 = some p.2 := by
  intro m
  induction m with
  | nil => intro p hp _; cases hp
  | cons q rest ih =>
      intro p hp hnd
      have hnd2 : q.1 ∉ jkeys rest ∧ (jkeys rest).Nodup := by
        rw [show jkeys (q :: rest) = q.1 :: jkeys rest from rfl,
          List.nodup_cons] at hnd
        exact hnd
      rw [jget_cons]
      rcases List.mem_cons.mp hp with hpq | hpr
      · rw [hpq, if_pos rfl]
      · have hq : ¬ q.1 = p.1 := by
          intro h
          apply hnd2.1
          rw [h]
          exact List.mem_map_of_mem Prod.fst hpr
        rw [if_neg hq]
        exact ih p hpr hnd2.2

theorem foldl_pair_fst {α β γ : Type} (fn : α → γ → α) (gn : β → γ → β) :
    ∀ (l : List γ) (a : α) (b : β),
      (l.foldl (fun np p => (fn np.1 p, gn np.2 p)) (a, b)).1
        = l.foldl fn a := by
  intro l
  induction l with
  | nil => intro a b; rfl
  | cons q rest ih =>
      intro a b
      simp only [List.foldl_cons]
      exact ih (fn a q) (gn b q)

theorem jget_foldl_writer {α β : Type} (F : Option α → String × β → α) :
    ∀ (l : List (String × β)) (m : JMap α) (x : String),
      (¬ x ∈ l.map Prod.fst →
        jget (l.foldl (fun m p => jset m p.1 (F (jget m p.1) p)) m) x
          = jget m x)
      ∧ ((l.map Prod.fst).Nodup → ∀ p ∈ l, p.1 = x →
        jget (l.foldl (fun m p => jset m p.1 (F (jget m p.1) p)) m) x
          = some (F (jget m x) p)) := by
  intro l
  induction l with
  | nil =>
      intro m x
      exact ⟨fun _ => rfl, fun _ p hp => absurd hp (List.not_mem_nil p)⟩
  | cons q rest ih =>
      intro m x
      constructor
      · intro hx
        have hxq : ¬ q.1 = x := by
          intro h
          exact hx (by rw [List.map_cons]; exact List.mem_cons.mpr (Or.inl h.symm))
        have hxr : ¬ x ∈ rest.map Prod.fst := by
          intro h
          exact hx (by rw [List.map_cons]; exact List.mem_cons_of_mem _ h)
        rw [List.foldl_cons,
          (ih (jset m q.1 (F (jget m q.1) q)) x).1 hxr,
          jget_jset_ne _ _ _ _ hxq]
      · intro hnd p hp hpx
        rw [List.map_cons, List.nodup_cons] at hnd
        rcases List.mem_cons.mp hp with hpq | hpr
        · rw [hpq] at hpx ⊢
          have hxr : ¬ x ∈ rest.map Prod.fst := by
            rw [← hpx]
            exact hnd.1
          rw [List.foldl_cons, (ih _ x).1 hxr, ← hpx]
          exact jget_jset_self _ _ _
        · have hqx : ¬ q.1 = x := by
            intro h
            apply hnd.1
            rw [h.trans hpx.symm]
            exact List.mem_map_of_mem _ hpr
          rw [List.foldl_cons, (ih _ x).2 hnd.2 p hpr hpx,
            jget_jset_ne _ _ _ _ hqx]

theorem relaxStep_untouched (costs : JMap JVal) (s u : String)
    (actual : Option WQ) (np : JMap JVal × JMap (Option String))
    (p : String × WQ) (x : String) (h : ¬ x = p.1) :
    jget (relaxStep costs s u actual np p).1 x = jget np.1 x := by
  unfold relaxStep
  split
  · rfl
  · dsimp only
    split
    · show jget (jset np.1 p.1 _) x = jget np.1 x
      exact jget_jset_ne _ _ _ _ (fun hh => h hh.symm)
    · rfl

theorem relaxStep_update (costs : JMap JVal) (s u : String)
    (actual : Option WQ) (np : JMap JVal × JMap (Option String))
    (p : String × WQ) (hps : ¬ p.1 = s) :
    jget (relaxStep costs s u actual np p).1 p.1
      = if jfalsy (jget np.1 p.1)
          ∨ olt (oadd (oadd actual (some p.2)) (onum (jget costs p.1)))
              (onum (jget np.1 p.1))
        then some (oadd (oadd actual (some p.2)) (onum (jget costs p.1)))
        else jget np.1 p.1 := by
  unfold relaxStep
  rw [if_neg hps]
  dsimp only
  split
  · exact jget_jset_self _ _ _
  · rfl

theorem dijkstraRelax_spec (costs : JMap JVal) (s u : String)
    (actual : Option WQ) :
    ∀ (adj : JMap WQ), (jkeys adj).Nodup →
    ∀ (np : JMap JVal × JMap (Option String)),
      (∀ x, ¬ (x ∈ jkeys adj ∧ ¬ x = s) →
        jget (dijkstraRelax costs s u actual adj np).1 x = jget np.1 x)
      ∧ (∀ p ∈ adj, ¬ p.1 = s →
        jget (dijkstraRelax costs s u actual adj np).1 p.1
          = if jfalsy (jget np.1 p.1)
              ∨ olt (oadd (oadd actual (some p.2)) (onum (jget costs p.1)))
                  (onum (jget np.1 p.1))
            then some (oadd (oadd actual (some p.2)) (onum (jget costs p.1)))
            else jget np.1 p.1) := by
  intro adj
  unfold dijkstraRelax
  induction adj with
  | nil =>
      intro _ np
      exact ⟨fun x _ => rfl, fun p hp => absurd hp (List.not_mem_nil p)⟩
  | cons q rest ih =>
      intro hnd np
      have hnd2 : q.1 ∉ jkeys rest ∧ (jkeys rest).Nodup := by
        rw [show jkeys (q :: rest) = q.1 :: jkeys rest from rfl,
          List.nodup_cons] at hnd
        exact hnd
      have IH := ih hnd2.2 (relaxStep costs s u actual np q)
      constructor
      · intro x hx
        have hx1 : ¬ (x ∈ jkeys rest ∧ ¬ x = s) := by
          intro hh
          exact hx ⟨List.mem_cons_of_mem _ hh.1, hh.2⟩
        rw [List.foldl_cons, IH.1 x hx1]
        by_cases hxs : x = s
        · by_cases hq : x = q.1
          · have hnoop : relaxStep costs s u actual np q = np := by
              unfold relaxStep
              rw [if_pos (hq.symm.trans hxs : q.1 = s)]
            rw [hnoop]
          · exact relaxStep_untouched costs s u actual np q x hq
        · have hxq : ¬ x = q.1 := by
            intro hh
            exact hx ⟨List.mem_cons.mpr (Or.inl hh), hxs⟩
          exact relaxStep_untouched costs s u actual np q x hxq
      · intro p hp hps
        rw [List.foldl_cons]
        rcases List.mem_cons.mp hp with hpq | hpr
        · rw [hpq] at hps ⊢
          have hq1 : ¬ (q.1 ∈ jkeys rest ∧ ¬ q.1 = s) := fun hh => hnd2.1 hh.1
          rw [IH.1 q.1 hq1]
          exact relaxStep_update costs s u actual np q hps
        · have hppq : ¬ p.1 = q.1 := by
            intro hh
            apply hnd2.1
            rw [← hh]
            exact List.mem_map_of_mem Prod.fst hpr
          have e1 : jget (relaxStep costs s u actual np q).1 p.1
              = jget np.1 p.1 :=
            relaxStep_untouched costs s u actual np q p.1 hppq
          rw [IH.2 p hpr hps, e1]

theorem fcnStep_visited (costs : JMap JVal) (nodes : JMap JVal)
    (visited : List String) (acc : Option String) (a : String)
    (hav : a ∈ visited) : fcnStep costs nodes visited acc a = acc := by
  unfold fcnStep
  dsimp only
  split
  · rename_i hcond
    exfalso
    rw [Bool.and_eq_true] at hcond
    have h2 := hcond.2
    have hc : visited.contains a = true := List.elem_iff.mpr hav
    rw [hc] at h2
    simp at h2
  · rfl

theorem fcnStep_none_unvisited (costs : JMap JVal) (nodes : JMap JVal)
    (visited : List String) (a : String) (hav : ¬ a ∈ visited) :
    fcnStep costs nodes visited none a = some a := by
  have hc : visited.contains a = false := by
    rw [Bool.eq_false_iff]
    intro hcc
    exact hav (List.elem_iff.mp hcc)
  unfold fcnStep
  dsimp only
  split
  · rfl
  · rename_i hcond
    exfalso
    apply hcond
    rw [Bool.and_eq_true]
    exact ⟨rfl, by rw [hc]; rfl⟩

theorem fcnStep_some (costs : JMap JVal) (nodes : JMap JVal)
    (visited : List String) (c0 a : String) (hav : ¬ a ∈ visited) :
    fcnStep costs nodes visited (some c0) a
      = if olt (oadd (onum (jget nodes a)) (onum (jget costs a)))
            (onum (jget nodes c0)) = true
        then some a else some c0 := by
  have hc : visited.contains a = false := by
    rw [Bool.eq_false_iff]
    intro hcc
    exact hav (List.elem_iff.mp hcc)
  unfold fcnStep
  dsimp only
  by_cases holt : olt (oadd (onum (jget nodes a)) (onum (jget costs a)))
      (onum (jget nodes c0)) = true
  · rw [if_pos holt]
    split
    · rfl
    · rename_i hcond
      exfalso
      apply hcond
      rw [Bool.and_eq_true]
      exact ⟨holt, by rw [hc]; rfl⟩
  · rw [if_neg holt]
    split
    · rename_i hcond
      exfalso
      rw [Bool.and_eq_true] at hcond
      exact holt hcond.1
    · rfl

theorem findCheapestNode_none (costs : JMap JVal) (nodes : JMap JVal)
    (visited : List String)
    (h : findCheapestNode costs nodes visited = none) :
    ∀ x ∈ jkeys nodes, x ∈ visited := by
  unfold findCheapestNode at h
  suffices haux : ∀ (l : List String) (acc : Option String),
      l.foldl (fcnStep costs nodes visited) acc = none →
      acc = none ∧ ∀ x ∈ l, x ∈ visited by
    exact fun x hx => (haux (jkeys nodes) none h).2 x hx
  intro l
  induction l with
  | nil =>
      intro acc hacc
      exact ⟨hacc, fun x hx => absurd hx (List.not_mem_nil x)⟩
  | cons a rest ih =>
      intro acc hacc
      simp only [List.foldl_cons] at hacc
      have hstep := ih (fcnStep costs nodes visited acc a) hacc
      by_cases hav : a ∈ visited
      · have hs := fcnStep_visited costs nodes visited acc a hav
        rw [hs] at hstep
        refine ⟨hstep.1, ?_⟩
        intro x hx
        rcases List.mem_cons.mp hx with hxa | hxr
        · rw [hxa]
          exact hav
        · exact hstep.2 x hxr
      · exfalso
        cases hc0 : acc with
        | none =>
            have hs := fcnStep_none_unvisited costs nodes visited a hav
            rw [hc0, hs] at hstep
            cases hstep.1
        | some c0 =>
            have hs := fcnStep_some costs nodes visited c0 a hav
            rw [hc0, hs] at hstep
            by_cases holt : olt (oadd (onum (jget nodes a)) (onum (jget costs a)))
                (onum (jget nodes c0)) = true
            · rw [if_pos holt] at hstep
              cases hstep.1
            · rw [if_neg holt] at hstep
              cases hstep.1

theorem findCheapestNode_min (costs : JMap JVal) (nodes : JMap JVal)
    (visited : List String)
    (hproper : ∀ x ∈ jkeys nodes, ∃ q : WQ, jget nodes x = some (some q))
    (htoll : ∀ x ∈ jkeys nodes, jget costs x = some (some 0))
    (n : String) (h : findCheapestNode costs nodes visited = some n) :
    ∀ x ∈ jkeys nodes, ¬ x ∈ visited →
    ∀ qn qx : WQ, jget nodes n = some (some qn) →
      jget nodes x = some (some qx) → qn ≤ qx := by
  unfold findCheapestNode at h
  suffices haux : ∀ (l : List String), (∀ x ∈ l, x ∈ jkeys nodes) →
      ∀ (acc : Option String),
      (∀ c, acc = some c → c ∈ jkeys nodes ∧ ¬ c ∈ visited) →
      ∀ nn, l.foldl (fcnStep costs nodes visited) acc = some nn →
        (∀ x ∈ l, ¬ x ∈ visited → ∀ qn qx : WQ,
          jget nodes nn = some (some qn) → jget nodes x = some (some qx) →
          qn ≤ qx)
        ∧ (∀ c, acc = some c → ∀ qn qc : WQ,
          jget nodes nn = some (some qn) → jget nodes c = some (some qc) →
          qn ≤ qc) by
    intro x hx hxv qn qx hqn hqx
    exact (haux (jkeys nodes) (fun y hy => hy) none (fun c hc => by cases hc)
      n h).1 x hx hxv qn qx hqn hqx
  intro l
  induction l with
  | nil =>
      intro _ acc hacc nn hh
      refine ⟨fun x hx => absurd hx (List.not_mem_nil x), ?_⟩
      intro c hc qn qc hqn hqc
      have hh2 : acc = some nn := hh
      rw [hh2] at hc
      injection hc with hc2
      rw [← hc2] at hqc
      rw [hqn] at hqc
      injection hqc with h3
      injection h3 with h4
      exact le_of_eq h4
  | cons a rest ih =>
      intro hl acc hacc nn hh
      simp only [List.foldl_cons] at hh
      have hain : a ∈ jkeys nodes := hl a (List.mem_cons_self _ _)
      have hrest : ∀ x ∈ rest, x ∈ jkeys nodes :=
        fun x hx => hl x (List.mem_cons_of_mem _ hx)
      by_cases hav : a ∈ visited
      · rw [fcnStep_visited costs nodes visited acc a hav] at hh
        have IH := ih hrest acc hacc nn hh
        refine ⟨?_, IH.2⟩
        intro x hx hxv qn qx hqn hqx
        rcases List.mem_cons.mp hx with hxa | hxr
        · exact absurd (by rw [hxa]; exact hav) hxv
        · exact IH.1 x hxr hxv qn qx hqn hqx
      · obtain ⟨qa, hqa⟩ := hproper a hain
        have htla := htoll a hain
        cases hc0 : acc with
        | none =>
            rw [hc0] at hh
            rw [fcnStep_none_unvisited costs nodes visited a hav] at hh
            have IH := ih hrest (some a)
              (fun c hc => by
                injection hc with h2
                rw [← h2]
                exact ⟨hain, hav⟩) nn hh
            refine ⟨?_, ?_⟩
            · intro x hx hxv qn qx hqn hqx
              rcases List.mem_cons.mp hx with hxa | hxr
              · have hqa2 : jget nodes a = some (some qx) := by
                  rw [← hxa]
                  exact hqx
                exact IH.2 a rfl qn qx hqn hqa2
              · exact IH.1 x hxr hxv qn qx hqn hqx
            · intro c hc
              cases hc
        | some c0 =>
            have hc0prop := hacc c0 hc0
            obtain ⟨qc0, hqc0⟩ := hproper c0 hc0prop.1
            rw [hc0] at hh
            rw [fcnStep_some costs nodes visited c0 a hav] at hh
            have holt_eval : olt (oadd (onum (jget nodes a)) (onum (jget costs a)))
                (onum (jget nodes c0)) = decide (qa + 0 < qc0) := by
              rw [hqa, htla, hqc0]
              rfl
            by_cases hlt : qa + 0 < qc0
            · rw [holt_eval, decide_eq_true hlt, if_pos rfl] at hh
              have IH := ih hrest (some a)
                (fun c hc => by
                  injection hc with h2
                  rw [← h2]
                  exact ⟨hain, hav⟩) nn hh
              refine ⟨?_, ?_⟩
              · intro x hx hxv qn qx hqn hqx
                rcases List.mem_cons.mp hx with hxa | hxr
                · have hqa2 : jget nodes a = some (some qx) := by
                    rw [← hxa]
                    exact hqx
                  exact IH.2 a rfl qn qx hqn hqa2
                · exact IH.1 x hxr hxv qn qx hqn hqx
              · intro c hc qn qc hqn hqc
                injection hc with hc2
                rw [← hc2] at hqc
                rw [hqc0] at hqc
                injection hqc with h3
                injection h3 with h4
                have h1 : qn ≤ qa := IH.2 a rfl qn qa hqn hqa
                calc qn ≤ qa := h1
                  _ = qa + 0 := (add_zero qa).symm
                  _ ≤ qc0 := le_of_lt hlt
                  _ = qc := h4
            · have hlt2 : ¬ decide (qa + 0 < qc0) = true := by
                rw [decide_eq_false hlt]
                intro hcc
                cases hcc
              rw [holt_eval, if_neg hlt2] at hh
              have IH := ih hrest (some c0)
                (fun c hc => by
                  injection hc with h2
                  rw [← h2]
                  exact hc0prop) nn hh
              refine ⟨?_, ?_⟩
              · intro x hx hxv qn qx hqn hqx
                rcases List.mem_cons.mp hx with hxa | hxr
                · have hqa2 : jget nodes a = some (some qx) := by
                    rw [← hxa]
                    exact hqx
                  rw [hqa] at hqa2
                  injection hqa2 with h3
                  injection h3 with h4
                  have h1 : qn ≤ qc0 := IH.2 c0 rfl qn qc0 hqn hqc0
                  have h2 : qc0 ≤ qa + 0 := le_of_not_lt hlt
                  calc qn ≤ qc0 := h1
                    _ ≤ qa + 0 := h2
                    _ = qa := add_zero qa
                    _ = qx := h4
                · exact IH.1 x hxr hxv qn qx hqn hqx
              · intro c hc qn qc hqn hqc
                injection hc with hc2
                have hqc2 : jget nodes c0 = some (some qc) := by
                  rw [hc2]
                  exact hqc
                exact IH.2 c0 rfl qn qc hqn hqc2

theorem exists_first_not {α : Type} (P : α → Prop) [DecidablePred P] :
    ∀ (l : List α), (∃ z ∈ l, ¬ P z) →
      ∃ pre y suf, l = pre ++ y :: suf ∧ (∀ z ∈ pre, P z) ∧ ¬ P y := by
  intro l
  induction l with
  | nil =>
      intro h
      obtain ⟨z, hz, _⟩ := h
      cases hz
  | cons a rest ih =>
      intro h
      by_cases hpa : P a
      · have h2 : ∃ z ∈ rest, ¬ P z := by
          rcases h with ⟨z, hz, hnz⟩
          rcases List.mem_cons.mp hz with hza | hzr
          · exact absurd (by rw [hza]; exact hpa) hnz
          · exact ⟨z, hzr, hnz⟩
        rcases ih h2 with ⟨pre, y, suf, heq, hpre, hy⟩
        refine ⟨a :: pre, y, suf, by rw [heq]; rfl, ?_, hy⟩
        intro z hz
        rcases List.mem_cons.mp hz with hza | hzr
        · rw [hza]
          exact hpa
        · exact hpre z hzr
      · exact ⟨[], a, rest, rfl, fun z hz => absurd hz (List.not_mem_nil z), hpa⟩

/-- The greedy exchange argument: the unvisited node `u` selected by
`findCheapestNode` (whose tentative cost dominates no other unvisited
tentative cost, hypothesis `hdom`) already carries its final
distance. -/
theorem dijkstra_greedy (g : JMap (JMap WQ)) (hwf : WFGraph g)
    (visited : List String) (s u : String) (hsu : ¬ s = u) (hu : u ∈ jkeys g)
    (hunv : ¬ u ∈ visited) (hVsub : ∀ x ∈ visited, x ∈ jkeys g)
    (hdom : ∀ y ∈ jkeys g, ¬ y = s → ¬ y ∈ visited →
      spMin g visited s u ≤ spMin g visited s y) :
    spMin g visited s u = spMin g (jkeys g) s u := by
  apply le_antisymm ?_ (spMin_subset_mono g visited (jkeys g) s u hVsub)
  rcases spMin_attained g (jkeys g) s u with htop | ⟨mid, hnd, hel, hval⟩
  · rw [htop]
    exact le_top
  rw [hval]
  have hex : ∃ z ∈ mid ++ [u], ¬ z ∈ visited :=
    ⟨u, List.mem_append_right _ (List.mem_singleton.mpr rfl), hunv⟩
  rcases exists_first_not (fun z => z ∈ visited) (mid ++ [u]) hex
    with ⟨pre, y, suf, heq, hpre, hy⟩
  have hymem : y ∈ mid ++ [u] := by
    rw [heq]
    exact List.mem_append_right _ (List.mem_cons_self _ _)
  have hykeys : y ∈ jkeys g := by
    rcases List.mem_append.mp hymem with hy1 | hy1
    · exact (hel y hy1).1
    · rw [List.mem_singleton] at hy1
      rw [hy1]
      exact hu
  have hys : ¬ y = s := by
    rcases List.mem_append.mp hymem with hy1 | hy1
    · exact (hel y hy1).2.1
    · rw [List.mem_singleton] at hy1
      rw [hy1]
      exact fun hh => hsu hh.symm
  have hndmu : (mid ++ [u]).Nodup := by
    rw [List.nodup_append]
    refine ⟨hnd, List.nodup_singleton u, ?_⟩
    intro z hz1 hz2
    rw [List.mem_singleton] at hz2
    exact (hel z hz1).2.2 hz2
  have hprend : pre.Nodup :=
    List.Nodup.sublist (List.IsPrefix.sublist ⟨y :: suf, heq.symm⟩) hndmu
  have hw1 : spMin g visited s y ≤ wcost g (s :: (pre ++ [y])) := by
    apply spMin_le g visited s y pre hprend
    intro z hz
    refine ⟨hpre z hz, ?_, ?_⟩
    · have hzmu : z ∈ mid ++ [u] := by
        rw [heq]
        exact List.mem_append_left _ hz
      rcases List.mem_append.mp hzmu with hz1 | hz1
      · exact (hel z hz1).2.1
      · rw [List.mem_singleton] at hz1
        exact absurd (by rw [← hz1]; exact hpre z hz) hunv
    · intro hh
      exact hy (by rw [← hh]; exact hpre z hz)
  have hw2 : wcost g (s :: (pre ++ [y])) ≤ wcost g (s :: (mid ++ [u])) := by
    rw [heq]
    have harg : s :: (pre ++ y :: suf) = (s :: pre) ++ y :: suf := rfl
    rw [harg, wcost_append g (s :: pre) y suf]
    have harg2 : (s :: pre) ++ [y] = s :: (pre ++ [y]) := rfl
    rw [harg2]
    exact le_add_of_nonneg_right (wcost_nonneg g hwf _)
  calc spMin g visited s u ≤ spMin g visited s y := hdom y hykeys hys hy
    _ ≤ wcost g (s :: (pre ++ [y])) := hw1
    _ ≤ wcost g (s :: (mid ++ [u])) := hw2

/-- The master invariant of the Dijkstra `while` loop under the C1
premises: discovered-but-unvisited nodes carry the minimum cost over
simple paths with visited interiors, visited nodes carry their final
distance, and undiscovered nodes are unreachable through the visited
set.  On any terminating run the end node's entry is its distance. -/
theorem dijkstraLoop_exit (g : JMap (JMap WQ)) (costs : JMap JVal)
    (hwf : WFGraph g) (hzt : ZeroTolls g costs) (s e : String) :
    ∀ (fuel : Nat) (nodes : JMap JVal) (parents : JMap (Option String))
      (visited : List String),
    (∀ x ∈ jkeys nodes, x ∈ jkeys g ∧ ¬ x = s) →
    e ∈ jkeys nodes →
    (∀ x ∈ visited, x ∈ jkeys nodes) →
    (∀ x ∈ jkeys nodes, ¬ x ∈ visited →
      jget nodes x = some (some (spMin g visited s x))) →
    (∀ x ∈ visited, jget nodes x = some (some (spMin g (jkeys g) s x))
      ∧ spMin g visited s x = spMin g (jkeys g) s x) →
    (∀ y ∈ jkeys g, ¬ y = s → ¬ y ∈ jkeys nodes →
      spMin g visited s y = ⊤) →
    ∀ nodesF parentsF,
      dijkstraLoop g costs s fuel nodes parents visited
        = some (nodesF, parentsF) →
      jget nodesF e = some (some (spMin g (jkeys g) s e)) := by
  intro fuel
  induction fuel with
  | zero =>
      intro nodes parents visited _ _ _ _ _ _ nodesF parentsF hrun
      simp only [dijkstraLoop] at hrun
      cases hrun
  | succ fuel ih =>
      intro nodes parents visited hkeys hke hvk hunvis hvis hundisc
        nodesF parentsF hrun
      simp only [dijkstraLoop] at hrun
      cases hfc : findCheapestNode costs nodes visited with
      | none =>
          simp only [hfc] at hrun
          injection hrun with hrun2
          injection hrun2 with hrn hrp
          have hev : e ∈ visited := findCheapestNode_none costs nodes visited hfc e hke
          rw [← hrn]
          exact (hvis e hev).1
      | some n =>
          obtain ⟨hnk, hnv⟩ := findCheapestNode_spec costs nodes visited n hfc
          have hng := hkeys n hnk
          have hne : ¬ n = "" := fun hh => hwf.2.1 (hh ▸ hng.1)
          simp only [hfc, if_neg hne] at hrun
          have hval_n : jget nodes n = some (some (spMin g visited s n)) :=
            hunvis n hnk hnv
          obtain ⟨row, hrow⟩ :=
            Option.isSome_iff_exists.mp ((jget_isSome_iff g n).mpr hng.1)
          have hnp : dijkstraRelax costs s n (onum (jget nodes n))
                ((jget g n).getD []) (nodes, parents)
              = dijkstraRelax costs s n (some (spMin g visited s n)) row
                (nodes, parents) := by
            rw [hval_n, hrow]
            rfl
          rw [hnp] at hrun
          have hrownd : (jkeys row).Nodup :=
            hwf.2.2.1 (n, row) (jget_mem g n row hrow)
          have hrowwf : ∀ q ∈ row,
              q.1 ∈ jkeys g ∧ ¬ q.1 = n ∧ 0 < q.2 ∧ ¬ q.2 = ⊤ :=
            fun q hq => hwf.2.2.2 (n, row) (jget_mem g n row hrow) q hq
          have hewof : ∀ p ∈ row, ew g n p.1 = p.2 := by
            intro p hp
            have hjr : jget row p.1 = some p.2 := jget_of_mem_nodup row p hp hrownd
            unfold ew jget2
            rw [hrow]
            show (jget row p.1).getD ⊤ = p.2
            rw [hjr]
            rfl
          have hewnone : ∀ y, ¬ y ∈ jkeys row → ew g n y = ⊤ := by
            intro y hy
            have hjr : jget row y = none := (jget_eq_none_iff row y).mpr hy
            unfold ew jget2
            rw [hrow]
            show (jget row y).getD ⊤ = ⊤
            rw [hjr]
            rfl
          have hsV : ¬ s ∈ visited := fun hh => (hkeys s (hvk s hh)).2 rfl
          have hVg : ∀ x ∈ visited, x ∈ jkeys g :=
            fun x hx => (hkeys x (hvk x hx)).1
          have hsettled : ∀ y ∈ visited,
              spMin g visited s y = spMin g (jkeys g) s y :=
            fun y hy => (hvis y hy).2
          have hsn : ¬ s = n := fun hh => hng.2 hh.symm
          have hAeq : spMin g visited s n = spMin g (jkeys g) s n := by
            apply dijkstra_greedy g hwf visited s n hsn hng.1 hnv hVg
            intro y hyg hys hyv
            by_cases hyk : y ∈ jkeys nodes
            · have hproper : ∀ x ∈ jkeys nodes, ∃ q : WQ,
                  jget nodes x = some (some q) := by
                intro x hx
                by_cases hxv : x ∈ visited
                · exact ⟨spMin g (jkeys g) s x, (hvis x hxv).1⟩
                · exact ⟨spMin g visited s x, hunvis x hx hxv⟩
              have htoll : ∀ x ∈ jkeys nodes, jget costs x = some (some 0) :=
                fun x hx => hzt x (hkeys x hx).1
              exact findCheapestNode_min costs nodes visited hproper htoll n hfc
                y hyk hyv (spMin g visited s n) (spMin g visited s y) hval_n
                (hunvis y hyk hyv)
            · rw [hundisc y hyg hys hyk]
              exact le_top
          have RS := dijkstraRelax_spec costs s n (some (spMin g visited s n))
            row hrownd (nodes, parents)
          have hmono : ∀ x ∈ jkeys nodes,
              x ∈ jkeys (dijkstraRelax costs s n (some (spMin g visited s n))
                row (nodes, parents)).1 := by
            intro x hx
            by_cases hc : x ∈ jkeys row ∧ ¬ x = s
            · rcases List.mem_map.mp hc.1 with ⟨p, hp, hpx⟩
              have hv := RS.2 p hp (by rw [hpx]; exact hc.2)
              rw [hpx] at hv
              rw [← jget_isSome_iff, hv]
              split
              · rfl
              · rw [jget_isSome_iff]
                exact hx
            · rw [← jget_isSome_iff, RS.1 x hc, jget_isSome_iff]
              exact hx
          have i1 : ∀ x ∈ jkeys (dijkstraRelax costs s n
                (some (spMin g visited s n)) row (nodes, parents)).1,
              x ∈ jkeys g ∧ ¬ x = s := by
            intro x hx
            by_cases hc : x ∈ jkeys row ∧ ¬ x = s
            · rcases List.mem_map.mp hc.1 with ⟨p, hp, hpx⟩
              have hrw := hrowwf p hp
              refine ⟨by rw [← hpx]; exact hrw.1, hc.2⟩
            · have h1 := (jget_isSome_iff _ x).mpr hx
              rw [RS.1 x hc] at h1
              exact hkeys x ((jget_isSome_iff nodes x).mp h1)
          have i2 : e ∈ jkeys (dijkstraRelax costs s n
              (some (spMin g visited s n)) row (nodes, parents)).1 :=
            hmono e hke
          have i3 : ∀ x ∈ visited ++ [n],
              x ∈ jkeys (dijkstraRelax costs s n
                (some (spMin g visited s n)) row (nodes, parents)).1 := by
            intro x hx
            rcases List.mem_append.mp hx with hx1 | hx1
            · exact hmono x (hvk x hx1)
            · rw [List.mem_singleton] at hx1
              rw [hx1]
              exact hmono n hnk
          have i4 : ∀ x ∈ jkeys (dijkstraRelax costs s n
                (some (spMin g visited s n)) row (nodes, parents)).1,
              ¬ x ∈ visited ++ [n] →
              jget (dijkstraRelax costs s n (some (spMin g visited s n)) row
                (nodes, parents)).1 x
                = some (some (spMin g (visited ++ [n]) s x)) := by
            intro x hx hxv
            have hxvold : ¬ x ∈ visited :=
              fun hh => hxv (List.mem_append_left _ hh)
            have hxn : ¬ x = n :=
              fun hh => hxv (List.mem_append_right _ (List.mem_singleton.mpr hh))
            obtain ⟨hxg, hxs⟩ := i1 x hx
            have hins := spMin_insert g hwf visited s n x hVg hsV hng.1 hsn
              (fun hh => hxs hh.symm) (fun hh => hxn hh.symm) hsettled
            by_cases hcr : x ∈ jkeys row
            · rcases List.mem_map.mp hcr with ⟨p, hp, hpx⟩
              have hv := RS.2 p hp (by rw [hpx]; exact hxs)
              rw [hpx] at hv
              have hewx : ew g n x = p.2 := by
                rw [← hpx]
                exact hewof p hp
              have htl : jget costs x = some (some 0) := hzt x hxg
              rw [hv, hins, hewx, htl]
              by_cases hxk : x ∈ jkeys nodes
              · have hold := hunvis x hxk hxvold
                rw [hold]
                have hX := spMin_pos g hwf visited s x
                by_cases hlt : spMin g visited s n + p.2 + 0 < spMin g visited s x
                · rw [if_pos (show jfalsy (some (some (spMin g visited s x))) = true
                      ∨ olt (oadd (oadd (some (spMin g visited s n)) (some p.2))
                          (onum (some (some (0 : WQ)))))
                        (onum (some (some (spMin g visited s x)))) = true
                      from Or.inr (decide_eq_true hlt))]
                  show some (some (spMin g visited s n + p.2 + 0))
                    = some (some (min (spMin g visited s x)
                        (spMin g visited s n + p.2)))
                  rw [add_zero] at hlt ⊢
                  rw [min_eq_right (le_of_lt hlt)]
                · rw [if_neg ?_]
                  · have hXle : spMin g visited s x
                        ≤ spMin g visited s n + p.2 := by
                      have h2 := le_of_not_lt hlt
                      rw [add_zero] at h2
                      exact h2
                    rw [min_eq_left hXle]
                  · intro hh
                    rcases hh with hh | hh
                    · have h2 : (spMin g visited s x == 0) = true := hh
                      rw [beq_iff_eq] at h2
                      exact absurd (h2 ▸ hX) (lt_irrefl 0)
                    · have h2 : decide (spMin g visited s n + p.2 + 0
                          < spMin g visited s x) = true := hh
                      rw [decide_eq_true_eq] at h2
                      exact hlt h2
              · have hnone : jget nodes x = none := (jget_eq_none_iff nodes x).mpr hxk
                have hXtop : spMin g visited s x = ⊤ := hundisc x hxg hxs hxk
                rw [hnone, hXtop]
                rw [if_pos (show jfalsy none = true
                    ∨ olt (oadd (oadd (some (spMin g visited s n)) (some p.2))
                        (onum (some (some 0)))) (onum (none : Option JVal)) = true
                    from Or.inl rfl)]
                show some (some (spMin g visited s n + p.2 + 0))
                  = some (some (min ⊤ (spMin g visited s n + p.2)))
                rw [add_zero, min_eq_right le_top]
            · have he := RS.1 x (fun hh => hcr hh.1)
              rw [he, hins, hewnone x hcr, add_top, min_eq_left le_top]
              have hxk : x ∈ jkeys nodes := by
                have h1 := (jget_isSome_iff _ x).mpr hx
                rw [he] at h1
                exact (jget_isSome_iff nodes x).mp h1
              exact hunvis x hxk hxvold
          have i5 : ∀ x ∈ visited ++ [n],
              jget (dijkstraRelax costs s n (some (spMin g visited s n)) row
                (nodes, parents)).1 x
                = some (some (spMin g (jkeys g) s x))
              ∧ spMin g (visited ++ [n]) s x = spMin g (jkeys g) s x := by
            have hVung : ∀ z ∈ visited ++ [n], z ∈ jkeys g := by
              intro z hz
              rcases List.mem_append.mp hz with hz1 | hz1
              · exact hVg z hz1
              · rw [List.mem_singleton] at hz1
                rw [hz1]
                exact hng.1
            intro x hx
            rcases List.mem_append.mp hx with hx1 | hx1
            · have hv1 := hvis x hx1
              have hxs : ¬ x = s := (hkeys x (hvk x hx1)).2
              have hxg : x ∈ jkeys g := (hkeys x (hvk x hx1)).1
              constructor
              · by_cases hcr : x ∈ jkeys row
                · rcases List.mem_map.mp hcr with ⟨p, hp, hpx⟩
                  have hv := RS.2 p hp (by rw [hpx]; exact hxs)
                  rw [hpx] at hv
                  have hewx : ew g n x = p.2 := by
                    rw [← hpx]
                    exact hewof p hp
                  have htl : jget costs x = some (some 0) := hzt x hxg
                  have hδpos := spMin_pos g hwf (jkeys g) s x
                  have htri : spMin g (jkeys g) s x
                      ≤ spMin g (jkeys g) s n + ew g n x :=
                    spMin_triangle g hwf (jkeys g) s n x
                      (fun hh => hxs hh.symm) hng.1
                  rw [hewx] at htri
                  rw [hv, hv1.1, htl, if_neg ?_]
                  · intro hh
                    rcases hh with hh | hh
                    · have h2 : (spMin g (jkeys g) s x == 0) = true := hh
                      rw [beq_iff_eq] at h2
                      exact absurd (h2 ▸ hδpos) (lt_irrefl 0)
                    · have h2 : decide (spMin g visited s n + p.2 + 0
                          < spMin g (jkeys g) s x) = true := hh
                      rw [decide_eq_true_eq, add_zero, hAeq] at h2
                      exact absurd htri (not_le_of_lt h2)
                · rw [RS.1 x (fun hh => hcr hh.1)]
                  exact hv1.1
              · apply le_antisymm
                · exact le_of_le_of_eq (spMin_subset_mono g visited
                    (visited ++ [n]) s x (fun z hz => List.mem_append_left _ hz))
                    hv1.2
                · exact spMin_subset_mono g (visited ++ [n]) (jkeys g) s x hVung
            · rw [List.mem_singleton] at hx1
              rw [hx1]
              have hnr : ¬ n ∈ jkeys row := by
                intro hh
                rcases List.mem_map.mp hh with ⟨p, hp, hpn⟩
                exact (hrowwf p hp).2.1 hpn
              constructor
              · rw [RS.1 n (fun hh => hnr hh.1), hval_n, hAeq]
              · rw [spMin_append_endpoint g visited n s n (Or.inr rfl), hAeq]
          have i6 : ∀ y ∈ jkeys g, ¬ y = s →
              ¬ y ∈ jkeys (dijkstraRelax costs s n
                (some (spMin g visited s n)) row (nodes, parents)).1 →
              spMin g (visited ++ [n]) s y = ⊤ := by
            intro y hyg hys hyk2
            have hykold : ¬ y ∈ jkeys nodes := fun hh => hyk2 (hmono y hh)
            have hyrow : ¬ y ∈ jkeys row := by
              intro hh
              rcases List.mem_map.mp hh with ⟨p, hp, hpy⟩
              have hv := RS.2 p hp (by rw [hpy]; exact hys)
              rw [hpy] at hv
              have hnone : jget nodes y = none :=
                (jget_eq_none_iff nodes y).mpr hykold
              rw [hnone] at hv
              rw [if_pos (show jfalsy none = true
                  ∨ olt (oadd (oadd (some (spMin g visited s n)) (some p.2))
                      (onum (jget costs y))) (onum (none : Option JVal)) = true
                  from Or.inl rfl)] at hv
              apply hyk2
              rw [← jget_isSome_iff, hv]
              rfl
            have hyn : ¬ n = y := by
              intro hh
              exact hyk2 (by rw [← hh]; exact hmono n hnk)
            have hins := spMin_insert g hwf visited s n y hVg hsV hng.1 hsn
              (fun hh => hys hh.symm) hyn hsettled
            rw [hins, hundisc y hyg hys hykold, hewnone y hyrow, add_top]
            exact min_self ⊤
          exact ih (dijkstraRelax costs s n (some (spMin g visited s n)) row
              (nodes, parents)).1
            (dijkstraRelax costs s n (some (spMin g visited s n)) row
              (nodes, parents)).2
            (visited ++ [n]) i1 i2 i3 i4 i5 i6 nodesF parentsF hrun

set_option maxHeartbeats 2000000 in
/-- Under the C1 premises, a successful `findPathDijkstra` run reports
exactly the minimum simple-path cost from `s` to `e`. -/
theorem dijkstra_cost (st : GraphState) (hwf : WFGraph st.graph)
    (hzt : ZeroTolls st.graph st.costsNodes) (s e : String) (hse : ¬ s = e)
    (r : DijkstraResult)
    (hD : findPathDijkstra st s e = some (.ok r)) :
    r.cost = some (spMin st.graph (jkeys st.graph) s e) := by
  unfold findPathDijkstra at hD
  by_cases h1 : ((jget st.graph s).isNone = true) ∨ ((jget st.graph e).isNone = true)
  · rw [if_pos h1] at hD
    injection hD with hD2
    cases hD2
  · rw [if_neg h1] at hD
    cases hgs : jget st.graph s with
    | none =>
        exfalso
        exact h1 (Or.inl (by rw [hgs]; rfl))
    | some rowS =>
    cases hge : jget st.graph e with
    | none =>
        exfalso
        exact h1 (Or.inr (by rw [hge]; rfl))
    | some rowE =>
    have hs : s ∈ jkeys st.graph :=
      (jget_isSome_iff _ _).mp (by rw [hgs]; rfl)
    have he : e ∈ jkeys st.graph :=
      (jget_isSome_iff _ _).mp (by rw [hge]; rfl)
    have hadj : (jget st.graph s).getD [] = rowS := by
      rw [hgs]
      rfl
    simp only [] at hD
    rw [hadj] at hD
    by_cases hnil : rowS = []
    · rw [if_pos hnil] at hD
      injection hD with hD2
      cases hD2
    · rw [if_neg hnil] at hD
      have hndS : (jkeys rowS).Nodup :=
        hwf.2.2.1 (s, rowS) (jget_mem _ _ _ hgs)
      have hrwfS : ∀ q ∈ rowS,
          q.1 ∈ jkeys st.graph ∧ ¬ q.1 = s ∧ 0 < q.2 ∧ ¬ q.2 = ⊤ :=
        fun q hq => hwf.2.2.2 (s, rowS) (jget_mem _ _ _ hgs) q hq
      have hewS : ∀ p ∈ rowS, ew st.graph s p.1 = p.2 := by
        intro p hp
        have hjr : jget rowS p.1 = some p.2 := jget_of_mem_nodup rowS p hp hndS
        unfold ew jget2
        rw [hgs]
        show (jget rowS p.1).getD ⊤ = p.2
        rw [hjr]
        rfl
      have hewSnone : ∀ y, ¬ y ∈ jkeys rowS → ew st.graph s y = ⊤ := by
        intro y hy
        have hjr : jget rowS y = none := (jget_eq_none_iff rowS y).mpr hy
        unfold ew jget2
        rw [hgs]
        show (jget rowS y).getD ⊤ = ⊤
        rw [hjr]
        rfl
      have hN0_untouched : ∀ x, ¬ x ∈ jkeys rowS →
          jget (rowS.foldl (fun m p => jset m p.1 (some p.2))
            [(e, (some ⊤ : JVal))]) x
          = if e = x then some (some ⊤) else none :=
        fun x hx =>
          (jget_foldl_writer (fun (_ : Option JVal) (p : String × WQ) =>
            (some p.2 : JVal)) rowS [(e, (some ⊤ : JVal))] x).1 hx
      have hN0_hit : ∀ x, ∀ p ∈ rowS, p.1 = x →
          jget (rowS.foldl (fun m p => jset m p.1 (some p.2))
            [(e, (some ⊤ : JVal))]) x = some (some p.2) :=
        fun x p hp hpx =>
          (jget_foldl_writer (fun (_ : Option JVal) (p : String × WQ) =>
            (some p.2 : JVal)) rowS [(e, (some ⊤ : JVal))] x).2 hndS p hp hpx
      have hN_untouched : ∀ x, ¬ x ∈ jkeys rowS →
          jget (rowS.foldl (fun m p => jset m p.1
              (oadd (onum (jget m p.1)) (oadd (onum (jget st.costsNodes s))
                (onum (jget st.costsNodes p.1)))))
            (rowS.foldl (fun m p => jset m p.1 (some p.2))
              [(e, (some ⊤ : JVal))])) x
          = jget (rowS.foldl (fun m p => jset m p.1 (some p.2))
              [(e, (some ⊤ : JVal))]) x :=
        fun x hx =>
          (jget_foldl_writer (fun (old : Option JVal) (p : String × WQ) =>
            (oadd (onum old) (oadd (onum (jget st.costsNodes s))
              (onum (jget st.costsNodes p.1))) : JVal)) rowS
            (rowS.foldl (fun m p => jset m p.1 (some p.2))
              [(e, (some ⊤ : JVal))]) x).1 hx
      have hN_hit : ∀ x, ∀ p ∈ rowS, p.1 = x →
          jget (rowS.foldl (fun m p => jset m p.1
              (oadd (onum (jget m p.1)) (oadd (onum (jget st.costsNodes s))
                (onum (jget st.costsNodes p.1)))))
            (rowS.foldl (fun m p => jset m p.1 (some p.2))
              [(e, (some ⊤ : JVal))])) x
          = some (oadd (onum (jget (rowS.foldl (fun m p =>
                jset m p.1 (some p.2)) [(e, (some ⊤ : JVal))]) x))
              (oadd (onum (jget st.costsNodes s))
                (onum (jget st.costsNodes x)))) := by
        intro x p hp hpx
        have h :=
          (jget_foldl_writer (fun (old : Option JVal) (p : String × WQ) =>
            (oadd (onum old) (oadd (onum (jget st.costsNodes s))
              (onum (jget st.costsNodes p.1))) : JVal)) rowS
            (rowS.foldl (fun m p => jset m p.1 (some p.2))
              [(e, (some ⊤ : JVal))]) x).2 hndS p hp hpx
        rw [hpx] at h
        exact h
      have hfst : (rowS.foldl
            (fun np p => (jset np.1 p.1 (oadd (onum (jget np.1 p.1))
                (oadd (onum (jget st.costsNodes s))
                  (onum (jget st.costsNodes p.1)))),
              jset np.2 p.1 (some s)))
            (rowS.foldl (fun m p => jset m p.1 (some p.2))
              [(e, (some ⊤ : JVal))],
             [("endNode", (none : Option String))])).1
          = rowS.foldl (fun m p => jset m p.1
              (oadd (onum (jget m p.1)) (oadd (onum (jget st.costsNodes s))
                (onum (jget st.costsNodes p.1)))))
            (rowS.foldl (fun m p => jset m p.1 (some p.2))
              [(e, (some ⊤ : JVal))]) :=
        foldl_pair_fst
          (fun m p => jset m p.1 (oadd (onum (jget m p.1))
            (oadd (onum (jget st.costsNodes s))
              (onum (jget st.costsNodes p.1)))))
          (fun m p => jset m p.1 (some s)) rowS
          (rowS.foldl (fun m p => jset m p.1 (some p.2))
            [(e, (some ⊤ : JVal))])
          [("endNode", (none : Option String))]
      rw [hfst] at hD
      have j1 : ∀ x ∈ jkeys (rowS.foldl (fun m p => jset m p.1
            (oadd (onum (jget m p.1)) (oadd (onum (jget st.costsNodes s))
              (onum (jget st.costsNodes p.1)))))
          (rowS.foldl (fun m p => jset m p.1 (some p.2))
            [(e, (some ⊤ : JVal))])),
          x ∈ jkeys st.graph ∧ ¬ x = s := by
        intro x hx
        by_cases hcr : x ∈ jkeys rowS
        · rcases List.mem_map.mp hcr with ⟨p, hp, hpx⟩
          have hq := hrwfS p hp
          refine ⟨by rw [← hpx]; exact hq.1, ?_⟩
          intro hh
          apply hq.2.1
          rw [hpx]
          exact hh
        · have h2 := (jget_isSome_iff _ x).mpr hx
          rw [hN_untouched x hcr, hN0_untouched x hcr] at h2
          by_cases hex : e = x
          · rw [← hex]
            exact ⟨he, fun hh => hse hh.symm⟩
          · rw [if_neg hex] at h2
            simp at h2
      have j2 : e ∈ jkeys (rowS.foldl (fun m p => jset m p.1
            (oadd (onum (jget m p.1)) (oadd (onum (jget st.costsNodes s))
              (onum (jget st.costsNodes p.1)))))
          (rowS.foldl (fun m p => jset m p.1 (some p.2))
            [(e, (some ⊤ : JVal))])) := by
        by_cases hcr : e ∈ jkeys rowS
        · rcases List.mem_map.mp hcr with ⟨p, hp, hpe⟩
          rw [← jget_isSome_iff, hN_hit e p hp hpe]
          rfl
        · rw [← jget_isSome_iff, hN_untouched e hcr, hN0_untouched e hcr,
            if_pos rfl]
          rfl
      have j3 : ∀ x ∈ ([] : List String),
          x ∈ jkeys (rowS.foldl (fun m p => jset m p.1
              (oadd (onum (jget m p.1)) (oadd (onum (jget st.costsNodes s))
                (onum (jget st.costsNodes p.1)))))
            (rowS.foldl (fun m p => jset m p.1 (some p.2))
              [(e, (some ⊤ : JVal))])) :=
        fun x hx => absurd hx (List.not_mem_nil x)
      have j4 : ∀ x ∈ jkeys (rowS.foldl (fun m p => jset m p.1
            (oadd (onum (jget m p.1)) (oadd (onum (jget st.costsNodes s))
              (onum (jget st.costsNodes p.1)))))
          (rowS.foldl (fun m p => jset m p.1 (some p.2))
            [(e, (some ⊤ : JVal))])),
          ¬ x ∈ ([] : List String) →
          jget (rowS.foldl (fun m p => jset m p.1
              (oadd (onum (jget m p.1)) (oadd (onum (jget st.costsNodes s))
                (onum (jget st.costsNodes p.1)))))
            (rowS.foldl (fun m p => jset m p.1 (some p.2))
              [(e, (some ⊤ : JVal))])) x
            = some (some (spMin st.graph [] s x)) := by
        intro x hx _
        rw [spMin_nil]
        by_cases hcr : x ∈ jkeys rowS
        · rcases List.mem_map.mp hcr with ⟨p, hp, hpx⟩
          have hxg : x ∈ jkeys st.graph := by
            rw [← hpx]
            exact (hrwfS p hp).1
          have hewx : ew st.graph s x = p.2 := by
            rw [← hpx]
            exact hewS p hp
          rw [hN_hit x p hp hpx, hN0_hit x p hp hpx, hzt s hs, hzt x hxg, hewx]
          show some (some (p.2 + (0 + 0))) = some (some p.2)
          rw [add_zero, add_zero]
        · have h2 := (jget_isSome_iff _ x).mpr hx
          rw [hN_untouched x hcr, hN0_untouched x hcr] at h2
          by_cases hex : e = x
          · rw [hN_untouched x hcr, hN0_untouched x hcr, if_pos hex,
              hewSnone x hcr]
          · rw [if_neg hex] at h2
            simp at h2
      have j5 : ∀ x ∈ ([] : List String),
          jget (rowS.foldl (fun m p => jset m p.1
              (oadd (onum (jget m p.1)) (oadd (onum (jget st.costsNodes s))
                (onum (jget st.costsNodes p.1)))))
            (rowS.foldl (fun m p => jset m p.1 (some p.2))
              [(e, (some ⊤ : JVal))])) x
            = some (some (spMin st.graph (jkeys st.graph) s x))
          ∧ spMin st.graph ([] : List String) s x
            = spMin st.graph (jkeys st.graph) s x :=
        fun x hx => absurd hx (List.not_mem_nil x)
      have j6 : ∀ y ∈ jkeys st.graph, ¬ y = s →
          ¬ y ∈ jkeys (rowS.foldl (fun m p => jset m p.1
              (oadd (onum (jget m p.1)) (oadd (onum (jget st.costsNodes s))
                (onum (jget st.costsNodes p.1)))))
            (rowS.foldl (fun m p => jset m p.1 (some p.2))
              [(e, (some ⊤ : JVal))])) →
          spMin st.graph ([] : List String) s y = ⊤ := by
        intro y hyg hys hyk
        rw [spMin_nil]
        apply hewSnone y
        intro hh
        rcases List.mem_map.mp hh with ⟨p, hp, hpy⟩
        apply hyk
        rw [← jget_isSome_iff, hN_hit y p hp hpy]
        rfl
      split at hD
      · cases hD
      · rename_i nodesF parentsF heq
        have hfinal := dijkstraLoop_exit st.graph st.costsNodes hwf hzt s e
          (dijkstraFuel st)
          (rowS.foldl (fun m p => jset m p.1
              (oadd (onum (jget m p.1)) (oadd (onum (jget st.costsNodes s))
                (onum (jget st.costsNodes p.1)))))
            (rowS.foldl (fun m p => jset m p.1 (some p.2))
              [(e, (some ⊤ : JVal))]))
          (rowS.foldl
            (fun np p => (jset np.1 p.1 (oadd (onum (jget np.1 p.1))
                (oadd (onum (jget st.costsNodes s))
                  (onum (jget st.costsNodes p.1)))),
              jset np.2 p.1 (some s)))
            (rowS.foldl (fun m p => jset m p.1 (some p.2))
              [(e, (some ⊤ : JVal))],
             [("endNode", (none : Option String))])).2
          [] j1 j2 j3 j4 j5 j6 nodesF parentsF heq
        split at hD
        · cases hD
        · rename_i path heq2
          injection hD with hD2
          injection hD2 with hD3
          rw [← hD3]
          show onum (jget nodesF e) = some (spMin st.graph (jkeys st.graph) s e)
          rw [hfinal]
          rfl

/-! ### Claim theorems -/

set_option maxRecDepth 40000

/-- Claim C2 (code bug in the source).  The claim says the node-cost
scaling operation multiplies every stored toll by the factor in
place.  In the source the loop guard is
`this.costsNodes.hasOwnProperty[node]` — a property *access* on the
`hasOwnProperty` function, not a call — which is `undefined`, hence
falsy, for every ordinary node name.  At the failing input (one node
`A` with toll 5, factor 2) the call reports `ok` yet leaves the toll
at 5, where the claim requires 10. -/
theorem C2_scaleNodeCosts_is_noop :
    MultiplyByFactorNodesCosts
      { graph := [("A", [])], costsNodes := [("A", some 5)] } (some 2)
    = ({ graph := [("A", [])], costsNodes := [("A", some 5)] }, .ok) := by decide

/-- Claim C3 (code bug in the source).  The duplicate check for a
bare-string node spec reads `typeof node === "String"`, which is
never true (`typeof` yields the lowercase `"string"`), so the check
is dead code and a duplicate bare-string `addNode` falls through:
on a graph where `A` has an outgoing edge to `B` and toll 2
(`constantNodesCost` 7), `addNode("A")` succeeds and resets `A`'s
adjacency to `{}` and its toll to 7, instead of failing with the
duplicate-node error and leaving the graph unchanged as the claim
(and the object-spec branch of the same function) requires. -/
theorem C3_addNode_duplicate_string_overwrites :
    addNode
      { graph := [("A", [("B", 5)]), ("B", [])],
        costsNodes := [("A", some 2), ("B", some 0)],
        constantNodesCost := 7 } (.str "A")
    = ({ graph := [("A", []), ("B", [])],
         costsNodes := [("A", some 7), ("B", some 0)],
         constantNodesCost := 7 }, .ok) := by decide

/-- Claim C4, counterexample.  With node auto-creation enabled and an
empty graph, `addRoute("X", "X", 5)` fails with the self-loop error —
but the state is not unchanged: node `X` was auto-created before the
self-loop check ran, and it persists. -/
theorem C4_counterexample :
    addRoute { graph := [], costsNodes := [], autoCreateNodes := true }
      (some "X") (some "X") (some 5) false false
    = ({ graph := [("X", [])], costsNodes := [("X", some 0)],
         autoCreateNodes := true }, .jsError) := by decide

/-- Claim C4, amended.  A self-loop `addRoute(n, n, w)` (valid weight,
auto-creation enabled) always fails with the self-loop error, and the
only committed write is the auto-creation of the missing endpoint:
if `n` already exists the state is returned unchanged, otherwise the
state differs from the original exactly by the fresh node `n` (empty
adjacency, toll `constantNodesCost`); no edge is ever written. -/
theorem C4_selfLoop_commits_auto_creation (st : GraphState) (n : String)
    (w : WQ) (b c : Bool) (hauto : st.autoCreateNodes = true) (hw : 0 < w) :
    addRoute st (some n) (some n) (some w) b c
    = (if (jget st.graph n).isSome then (st, .jsError)
       else ({ st with graph := jset st.graph n [],
                       costsNodes := jset st.costsNodes n (some st.constantNodesCost) },
             .jsError)) := by
  have hw2 : ¬ (w ≤ 0) := not_le.mpr hw
  by_cases hmem : (jget st.graph n).isSome
  · have h1 : (jget st.graph n).isNone = false := by
      rcases Option.isSome_iff_exists.mp hmem with ⟨x, hx⟩
      simp [hx]
    simp [addRoute, hw2, h1, hmem]
  · have h1 : (jget st.graph n).isNone = true := by
      cases hg : jget st.graph n with
      | some x => rw [hg] at hmem; simp at hmem
      | none => rfl
    have h2 : jget (jset st.graph n ([] : JMap WQ)) n = some [] :=
      jget_jset_self _ _ _
    simp [addRoute, addNode, hw2, h1, hauto, hmem, h2]

/-- Witness for the amended C4 theorem at a concrete input. -/
theorem C4_selfLoop_commits_auto_creation_witness :
    addRoute { graph := [], costsNodes := [], autoCreateNodes := true }
      (some "Y") (some "Y") (some 3) false false
    = ({ graph := [("Y", [])], costsNodes := [("Y", some 0)],
         autoCreateNodes := true }, .jsError) := by
  rw [C4_selfLoop_commits_auto_creation _ "Y" 3 false false rfl (by decide)]
  decide

/-- Claim C5, counterexample.  `addRoute("A", "B", Infinity)`: the
validation `isNaN(weight) || Number(weight) <= 0` lets `Infinity`
through, so the call succeeds and stores an infinite edge weight —
the claim requires it to fail with the invalid-argument error and
store nothing. -/
theorem C5_counterexample :
    addRoute
      { graph := [("A", []), ("B", [])],
        costsNodes := [("A", some 0), ("B", some 0)] }
      (some "A") (some "B") (some ⊤) false false
    = ({ graph := [("A", [("B", ⊤)]), ("B", [])],
         costsNodes := [("A", some 0), ("B", some 0)] }, .ok) := by decide

/-- Claim C5, amended.  `addRoute` rejects — with the invalid-argument
error and no state change — exactly the weights that are NaN or `≤ 0`;
`+Infinity` passes validation (and is stored), so weights written by
`addRoute` are strictly positive but not necessarily finite. -/
theorem C5_invalid_weight_rejected (st : GraphState) (sN eN : Option String)
    (w : JVal) (b c : Bool)
    (hbad : w = none ∨ ∃ q, w = some q ∧ q ≤ 0) :
    addRoute st sN eN w b c = (st, .jsError) := by
  rcases hbad with rfl | ⟨q, rfl, hq⟩
  · cases sN <;> cases eN <;> rfl
  · cases sN <;> cases eN <;> simp [addRoute, hq]

/-- Witness for the amended C5 theorem at weight `0`. -/
theorem C5_invalid_weight_rejected_witness :
    addRoute { graph := [("A", []), ("B", [])], costsNodes := [] }
      (some "A") (some "B") (some 0) false false
    = ({ graph := [("A", []), ("B", [])], costsNodes := [] }, .jsError) :=
  C5_invalid_weight_rejected _ _ _ _ _ _ (Or.inr ⟨0, rfl, le_refl 0⟩)

/-- Claim C6, counterexample.  A node added with the `protected` flag
set (`addNode({name: "C", cost: 500, protected: true})`) does *not*
keep its toll when the constant-node-cost property is assigned: the
source stores no such flag and the setter overwrites every entry, so
`C`'s toll becomes 100, not the 500 the claim requires. -/
theorem C6_counterexample :
    jget (setConstantNodesCost
        ((addNode { graph := [], costsNodes := [] }
            (.obj (some "C") (some 500) true)).1) 100).costsNodes "C"
    = some (some 100) := by decide

/-- Claim C6, amended.  Assigning the constant-node-cost property
stores the new value and overwrites the toll of *every* node; no
protected flag exists in the source, so no node is skipped. -/
theorem C6_constantNodesCost_overwrites_every_toll (st : GraphState) (v : WQ) :
    (setConstantNodesCost st v).constantNodesCost = v
    ∧ (setConstantNodesCost st v).costsNodes
        = st.costsNodes.map (fun p => (p.1, some v)) :=
  ⟨rfl, rfl⟩

/-- Claim C7 (confirmed).  On the spec's scenario graph — edges
`A→B(2)`, `A→C(1)`, `B→C(2)`, `C→D(1)`, `B→D(200)`, constant toll
100, `C`'s toll 500, auto-creation enabled — `findPathDijkstra(A, D)`
returns cost `502` and path `[A, B, D]`. -/
theorem C7_scenario_dijkstra :
    findPathDijkstra scenarioGraph "A" "D"
    = some (.ok ⟨some 502, ["A", "B", "D"]⟩) := by decide

/-- Claim C8, counterexample.  With an existing reverse edge
`B→A(5)`, `addRoute("A", "B", 3, bidirectional=true,
changeExisting=false)` succeeds and silently overwrites the reverse
edge to weight 3 — the claim requires the mirror write to fail with
the route-exists error and to preserve weight 5. -/
theorem C8_counterexample :
    addRoute
      { graph := [("A", []), ("B", [("A", 5)])],
        costsNodes := [("A", some 0), ("B", some 0)] }
      (some "A") (some "B") (some 3) true false
    = ({ graph := [("A", [("B", 3)]), ("B", [("A", 3)])],
         costsNodes := [("A", some 0), ("B", some 0)] }, .ok) := by decide

/-- Claim C8, amended.  The already-exists rule applies only to the
forward edge: whenever a bidirectional `addRoute` succeeds, the
reverse edge holds the given weight afterwards, overwriting any
previous reverse edge unconditionally (regardless of
`changeExisting`). -/
theorem C8_reverse_edge_overwritten (st st2 : GraphState) (s e : String)
    (w : WQ) (c : Bool)
    (h : addRoute st (some s) (some e) (some w) true c = (st2, .ok)) :
    jget2 st2.graph e s = some w := by
  simp only [addRoute] at h
  split at h
  · exact absurd (congrArg Prod.snd h) (by simp)
  · split at h
    · exact absurd (congrArg Prod.snd h) (by simp)
    · rename_i st1 hst1
      split at h
      · exact absurd (congrArg Prod.snd h) (by simp)
      · rename_i st2x hst2x
        split at h
        · exact absurd (congrArg Prod.snd h) (by simp)
        · rename_i hse
          split at h
          · exact absurd (congrArg Prod.snd h) (by simp)
          · simp only [if_true] at h
            injection h with h1 h2
            subst h1
            have hes : (jget st2x.graph e).isSome := by
              by_cases hcase : (jget st1.graph e).isNone = true
              · rw [if_pos hcase] at hst2x
                cases hac : st1.autoCreateNodes with
                | false => rw [hac] at hst2x; simp at hst2x
                | true =>
                    rw [hac, if_pos rfl] at hst2x
                    injection hst2x with hst2x2
                    rw [← hst2x2]
                    simp [addNode, jget_jset_self]
              · rw [if_neg hcase] at hst2x
                injection hst2x with hst2x2
                rw [← hst2x2]
                cases hg : jget st1.graph e with
                | none => exact absurd (by rw [hg]; rfl) hcase
                | some x => rfl
            show jget2 (jset2 (jset2 st2x.graph s e w) e s w) e s = some w
            refine jget2_jset2_self _ _ _ _ ?_
            rw [jget_jset2_ne _ _ _ _ _ hse]
            exact hes

/-- Witness for the amended C8 theorem at a concrete input. -/
theorem C8_reverse_edge_overwritten_witness :
    jget2 ({ graph := [("A", [("B", 3)]), ("B", [("A", 3)])],
             costsNodes := [("A", some 0), ("B", some 0)] } : GraphState).graph "B" "A"
    = some 3 := by
  exact C8_reverse_edge_overwritten
    { graph := [("A", []), ("B", [("A", 5)])],
      costsNodes := [("A", some 0), ("B", some 0)] }
    _ "A" "B" 3 false (by decide)

/-- Claim C9 (code bug in the source).  With no cached matrices,
`findPathFloydWarshall` raises the precomputation-required error when
the engine surfaces errors — but in the error-suppressing
configuration (`ignoreErrors = true`) the guard has no `return`, so
instead of leaving the solver in a safely ignorable state the call
falls through and crashes with a `TypeError` dereferencing the
`null` precedence matrix. -/
theorem C9_unprimed_query_crashes :
    (findPathFloydWarshall
        { graph := [("A", []), ("B", [])],
          costsNodes := [("A", some 0), ("B", some 0)],
          ignoreErrors := false } "A" "B" 10
      = some (.error .thrown))
    ∧ (findPathFloydWarshall
        { graph := [("A", []), ("B", [])],
          costsNodes := [("A", some 0), ("B", some 0)],
          ignoreErrors := true } "A" "B" 10
      = some (.error .typeErr)) := by
  exact ⟨by decide, by decide⟩

/-- Claim C10 (confirmed).  For every graph (no cost formatter is
configured, as everywhere in this embedding) and every node `s` that
exists, has at least one outgoing edge and — as the library's own
self-loop check guarantees for every reachable graph — no edge to
itself, `findPathDijkstra(s, s)` returns cost `Infinity` and path
`[s]`: the start node enters `nodes` with tentative cost `Infinity`,
the relaxation loop skips every edge back into the start node, and
the predecessor walk stops immediately because `s` never acquires a
parent. -/
theorem C10_dijkstra_self_query (st : GraphState) (s : String) (adj : JMap WQ)
    (hadj : jget st.graph s = some adj) (hne : ¬ adj = [])
    (hself : s ∉ jkeys adj) :
    findPathDijkstra st s s = some (.ok ⟨some ⊤, [s]⟩) := by
  have htg : ∀ k ∈ jkeys adj, k ∈ targets st.graph := fun k hk => mem_targets hadj hk
  have hn0 :
      jget (adj.foldl (fun m p => jset m p.1 (some p.2))
          [(s, (some ⊤ : JVal))]) s = some (some ⊤)
      ∧ ∀ k ∈ jkeys (adj.foldl (fun m p => jset m p.1 (some p.2))
          [(s, (some ⊤ : JVal))]), k ∈ s :: targets st.graph := by
    refine foldl_preserve adj _
      (fun m => jget m s = some (some ⊤) ∧ ∀ k ∈ jkeys m, k ∈ s :: targets st.graph)
      ?_ _ ⟨?_, ?_⟩
    · intro m p hp hm
      have hps : ¬ p.1 = s := fun hh => hself (hh ▸ List.mem_map_of_mem _ hp)
      refine ⟨?_, ?_⟩
      · rw [jget_jset_ne _ _ _ _ hps]
        exact hm.1
      · intro k hk
        rw [mem_jkeys_jset] at hk
        rcases hk with hk | rfl
        · exact hm.2 k hk
        · exact List.mem_cons_of_mem _ (htg _ (List.mem_map_of_mem _ hp))
    · rw [jget_cons]
      simp
    · intro k hk
      simp only [jkeys, List.map_cons, List.map_nil, List.mem_singleton] at hk
      simp [hk]
  have hpar : ¬ truthyP (jget [("endNode", (none : Option String))] s) = true := by
    rw [jget_cons]
    by_cases h : ("endNode" : String) = s
    · rw [if_pos h]
      simp [truthyP]
    · rw [if_neg h]
      simp [jget_nil, truthyP]
  have hinit := foldl_preserve adj
      (fun (np : JMap JVal × JMap (Option String)) p =>
        (jset np.1 p.1 (oadd (onum (jget np.1 p.1))
            (oadd (onum (jget st.costsNodes s)) (onum (jget st.costsNodes p.1)))),
         jset np.2 p.1 (some s)))
      (fun np => jget np.1 s = some (some ⊤)
        ∧ ¬ truthyP (jget np.2 s) = true
        ∧ ∀ k ∈ jkeys np.1, k ∈ s :: targets st.graph)
      (by
        intro np p hp hm
        have hps : ¬ p.1 = s := fun hh => hself (hh ▸ List.mem_map_of_mem _ hp)
        refine ⟨?_, ?_, ?_⟩
        · rw [jget_jset_ne _ _ _ _ hps]
          exact hm.1
        · rw [jget_jset_ne _ _ _ _ hps]
          exact hm.2.1
        · intro k hk
          rw [mem_jkeys_jset] at hk
          rcases hk with hk | rfl
          · exact hm.2.2 k hk
          · exact List.mem_cons_of_mem _ (htg _ (List.mem_map_of_mem _ hp)))
      (adj.foldl (fun m p => jset m p.1 (some p.2)) [(s, (some ⊤ : JVal))],
       [("endNode", (none : Option String))])
      ⟨hn0.1, hpar, hn0.2⟩
  obtain ⟨hi1, hi2, hi3⟩ := hinit
  have hlen : (targets st.graph).length = (st.graph.map (fun p => p.2.length)).sum := by
    unfold targets
    rw [List.length_flatten, List.map_map]
    refine congrArg List.sum ?_
    apply List.map_congr_left
    intro p _
    simp [jkeys]
  have hfuel : (s :: targets st.graph).dedup.length + 1
      ≤ dijkstraFuel st + ([] : List String).length := by
    have hd : (s :: targets st.graph).dedup.length ≤ (s :: targets st.graph).length :=
      (List.dedup_sublist _).length_le
    rw [List.length_cons, hlen] at hd
    unfold dijkstraFuel
    simp only [List.length_nil]
    omega
  obtain ⟨nodesF, parentsF, hloop, hnF, hpF⟩ :=
    dijkstraLoop_self st.graph st.costsNodes s (dijkstraFuel st) _ _ []
      hi1 hi2 hi3 List.nodup_nil (by intro v hv; cases hv) hfuel
  unfold findPathDijkstra
  rw [hadj]
  simp only [Option.isNone_some, Bool.false_eq_true, or_self, if_false, Option.getD_some]
  rw [if_neg hne, hloop]
  dsimp only
  rw [dijkstraPathWalk_stop parentsF _ [s] (jget parentsF s) hpF]
  dsimp only
  rw [hnF]
  rfl

/-- Witness for the C10 theorem at a concrete two-node graph. -/
theorem C10_dijkstra_self_query_witness :
    findPathDijkstra
      { graph := [("S", [("T", 4)]), ("T", [])],
        costsNodes := [("S", some 0), ("T", some 0)] } "S" "S"
    = some (.ok ⟨some ⊤, ["S"]⟩) :=
  C10_dijkstra_self_query _ "S" [("T", 4)] (by decide) (by decide) (by decide)

/-- Claim C1, counterexample.  Two concrete refutations on graphs
with positive finite weights and zero tolls.  (1) On `selfPairGraph`
at the pair `(A, A)`: Dijkstra reports cost `Infinity` with path
`[A]` while the Floyd-Warshall pipeline reports cost `0` with path
`[A, A]` — neither costs nor paths agree.  (2) On `tiePairGraph` at
`(A, D)`, two cheapest paths tie at cost 2 and the solvers return
different ones (`[A, C, D]` vs `[A, B, D]`), so path equality fails
even for distinct endpoints. -/
theorem C1_counterexample :
    (findPathDijkstra selfPairGraph "A" "A" = some (.ok ⟨some ⊤, ["A"]⟩)
      ∧ findPathFloydWarshall (findMatricesFloydWarshall selfPairGraph).1 "A" "A" 20
          = some (.ok ⟨some 0, ["A", "A"]⟩))
    ∧ (findPathDijkstra tiePairGraph "A" "D" = some (.ok ⟨some 2, ["A", "C", "D"]⟩)
      ∧ findPathFloydWarshall (findMatricesFloydWarshall tiePairGraph).1 "A" "D" 20
          = some (.ok ⟨some 2, ["A", "B", "D"]⟩)) := by
  exact ⟨⟨by decide, by decide⟩, ⟨by decide, by decide⟩⟩

/-- C1 (amended): on every well-formed graph state whose edge weights
are positive finite numbers and whose stored node tolls are all zero,
and for every query with distinct endpoints on which `findPathDijkstra`
succeeds, the cost it reports equals the `(s, e)` entry of the distance
matrix computed by `findMatricesFloydWarshall` on the same state (both
equal the minimum simple-path cost).  The reported paths may differ,
and an `s = e` query disagrees even in cost, as `C1_counterexample`
shows. -/
theorem C1_cost_agreement (st : GraphState) (hwf : WFGraph st.graph)
    (hzt : ZeroTolls st.graph st.costsNodes) (s e : String) (hse : ¬ s = e)
    (r : DijkstraResult) (hD : findPathDijkstra st s e = some (.ok r)) :
    jget2 (findMatricesFloydWarshall st).2.1 s e = r.cost := by
  have hs : s ∈ jkeys st.graph := by
    by_contra hns
    have hnone : jget st.graph s = none := (jget_eq_none_iff _ _).mpr hns
    unfold findPathDijkstra at hD
    rw [if_pos (show ((jget st.graph s).isNone = true)
        ∨ ((jget st.graph e).isNone = true)
        from Or.inl (by rw [hnone]; rfl))] at hD
    injection hD with hD2
    cases hD2
  have he : e ∈ jkeys st.graph := by
    by_contra hns
    have hnone : jget st.graph e = none := (jget_eq_none_iff _ _).mpr hns
    unfold findPathDijkstra at hD
    rw [if_pos (show ((jget st.graph s).isNone = true)
        ∨ ((jget st.graph e).isNone = true)
        from Or.inr (by rw [hnone]; rfl))] at hD
    injection hD with hD2
    cases hD2
  rw [dijkstra_cost st hwf hzt s e hse r hD]
  exact fw_dist_entry st hwf hzt s e hs he hse

theorem C1_cost_agreement_witness :
    (¬ "A" = "D")
    ∧ findPathDijkstra tiePairGraph "A" "D"
        = some (.ok (⟨some 2, ["A", "C", "D"]⟩ : DijkstraResult))
    ∧ jget2 (findMatricesFloydWarshall tiePairGraph).2.1 "A" "D"
        = (⟨some 2, ["A", "C", "D"]⟩ : DijkstraResult).cost :=
  ⟨by decide, by decide,
    C1_cost_agreement tiePairGraph (by unfold WFGraph; decide)
      (by unfold ZeroTolls; decide) "A" "D" (by decide)
      ⟨some 2, ["A", "C", "D"]⟩ (by decide)⟩

end DFW
